import Mathlib

/-!
Verification development for the DocSafe backend (PDF/DOCX sanitization and
report pipeline).  The JavaScript sources (`src/server.js` and the legacy
variant in `src/unnamed/part_000`) are shallowly embedded: strings are
`List Char`, ZIP archives are finite name-to-content maps, the PDF container
is a record of its pages and metadata fields, and the outbound
grammar-checking service is an oracle parameter.  Regex-based rewriting is
embedded by executable scanning functions that mirror the semantics of the
concrete regexes appearing in the source.
-/

set_option maxRecDepth 20000

namespace DocSafe

/-- Strings of the embedded program are lists of characters. -/
abbrev Str := List Char

/-- The zero-width-space character removed by `cleanTextBasic`'s first regex. -/
def zwsp : Char := '\u200B'

/-- Characters matched by the character class `[ \t]` in `cleanTextBasic`. -/
def isSpaceTab (c : Char) : Bool := c = ' ' || c = '\t'

/-- Characters matched by the class `[,;:!?]` in `cleanTextBasic`. -/
def isPunc (c : Char) : Bool := c = ',' || c = ';' || c = ':' || c = '!' || c = '?'

/-- The JavaScript `String.prototype.trim` whitespace set (ECMAScript
WhiteSpace and LineTerminator code points). -/
def isJsWs (c : Char) : Bool :=
  c = ' ' || c = '\t' || c = '\n' || c = '\r' || c = '\u000B' ||
  c = '\u000C' || c = '\u00A0' || c = '\u1680' || c = '\u2000' ||
  c = '\u2001' || c = '\u2002' || c = '\u2003' || c = '\u2004' ||
  c = '\u2005' || c = '\u2006' || c = '\u2007' || c = '\u2008' ||
  c = '\u2009' || c = '\u200A' || c = '\u2028' || c = '\u2029' ||
  c = '\u202F' || c = '\u205F' || c = '\u3000' || c = '\uFEFF'

/-- `.replace(/\u200B/g, "")` — remove every zero-width space. -/
def stripZW (s : Str) : Str := s.filter (fun c => c != zwsp)

/-- `.replace(/[ \t]+/g, " ")` — each maximal run of spaces/tabs becomes one
space.  All characters of a run except the last are dropped; the last one is
emitted as a single `' '`. -/
def collapseST : Str → Str
  | [] => []
  | [c] => if isSpaceTab c then [' '] else [c]
  | c :: d :: cs =>
    if isSpaceTab c then
      if isSpaceTab d then collapseST (d :: cs) else ' ' :: collapseST (d :: cs)
    else c :: collapseST (d :: cs)

/-- Drop a leading run of `' '` characters. -/
def dropSp : Str → Str
  | c :: cs => if c = ' ' then dropSp cs else c :: cs
  | [] => []

/-- Take the leading run of `' '` characters. -/
def takeSp : Str → Str
  | c :: cs => if c = ' ' then c :: takeSp cs else []
  | [] => []

theorem dropSp_length_le (l : Str) : (dropSp l).length ≤ l.length := by
  induction l with
  | nil => simp [dropSp]
  | cons c cs ih =>
    simp only [dropSp]
    split
    · exact Nat.le_trans ih (Nat.le_succ _)
    · simp

/-- `.replace(/ *\n */g, "\n")` — at each leftmost match, a run of spaces, a
newline and the following run of spaces are replaced by the newline; a run of
spaces not followed by a newline is left unchanged (no match can start inside
it). -/
def pass3 : Str → Str
  | [] => []
  | c :: cs =>
    if c = '\n' then '\n' :: pass3 (dropSp cs)
    else if c = ' ' then
      if (dropSp cs).head? = some '\n' then '\n' :: pass3 (dropSp (dropSp cs).tail)
      else (c :: takeSp cs) ++ pass3 (dropSp cs)
    else c :: pass3 cs
termination_by l => l.length
decreasing_by
  · exact Nat.lt_succ_of_le (dropSp_length_le cs)
  · have h1 : (dropSp (dropSp cs).tail).length ≤ (dropSp cs).tail.length :=
      dropSp_length_le _
    have h2 : (dropSp cs).tail.length ≤ (dropSp cs).length := by
      cases h : dropSp cs <;> simp
    have h3 : (dropSp cs).length ≤ cs.length := dropSp_length_le cs
    simp only [List.length_cons]
    omega
  · exact Nat.lt_succ_of_le (dropSp_length_le cs)
  · simp

/-- Drop one leading `' '` if present (the trailing ` ?` of the punctuation
regex). -/
def dropOneSp (l : Str) : Str :=
  match l with
  | c :: cs => if c = ' ' then cs else l
  | [] => []

theorem dropOneSp_length_le (l : Str) : (dropOneSp l).length ≤ l.length := by
  cases l with
  | nil => exact Nat.le_refl _
  | cons c cs =>
    simp only [dropOneSp]
    split
    · simp
    · exact Nat.le_refl _

/-- `.replace(/ ?([,;:!?]) ?/g, "$1 ")` — an optional space, a punctuation
character and an optional following space are replaced by the punctuation
character followed by exactly one space. -/
def pass4 : Str → Str
  | [] => []
  | ' ' :: p :: cs =>
    if isPunc p then p :: ' ' :: pass4 (dropOneSp cs) else ' ' :: pass4 (p :: cs)
  | c :: cs => if isPunc c then c :: ' ' :: pass4 (dropOneSp cs) else c :: pass4 cs
termination_by l => l.length
decreasing_by
  · have := dropOneSp_length_le cs
    simp only [List.length_cons]
    omega
  · simp
  · have := dropOneSp_length_le cs
    simp only [List.length_cons]
    omega
  · simp

/-- `.replace(/ \./g, ".")` — remove every space directly preceding a dot.
Each match `" ."` is replaced by `"."`; matches cannot overlap, so this is
exactly the deletion of each space whose direct successor is a dot (the dot
itself is emitted by the following step of the scan). -/
def pass5 : Str → Str
  | [] => []
  | c :: cs => if c = ' ' ∧ cs.head? = some '.' then pass5 cs else c :: pass5 cs

/-- `.replace(/[ ]{2,}/g, " ")` — each maximal run of two or more spaces
becomes a single space (a lone space is already a fixed point). -/
def pass6 : Str → Str
  | [] => []
  | [c] => [c]
  | c :: d :: cs =>
    if c = ' ' && d = ' ' then pass6 (d :: cs) else c :: pass6 (d :: cs)

/-- `String.prototype.trim()` — drop JS whitespace from both ends. -/
def jsTrim (s : Str) : Str :=
  ((s.dropWhile isJsWs).reverse.dropWhile isJsWs).reverse

/-- `cleanTextBasic` from `src/server.js` (the Text Normalizer): the six
global regex replacements applied in order, then `trim()`.  (The JS guard
`if (!str) return str` only short-circuits the empty string, on which the
pipeline is the identity anyway.) -/
def cleanTextBasic (s : Str) : Str :=
  jsTrim (pass6 (pass5 (pass4 (pass3 (collapseST (stripZW s))))))

/-! ### Normal-form invariants for the normalizer's image

`cleanTextBasic` is idempotent.  The proof characterises its image by local
invariants on adjacent characters and shows that each pass acts on such
strings in a controlled way. -/

/-- Scan over adjacent pairs: no pair `a b` with `bad a b` occurs. -/
def noPair (bad : Char → Char → Bool) : Str → Bool
  | a :: b :: r => !bad a b && noPair bad (b :: r)
  | _ => true

/-- Two adjacent spaces. -/
def isDbl (a b : Char) : Bool := a = ' ' && b = ' '

/-- A space directly after a newline. -/
def isNlSp (a b : Char) : Bool := a = '\n' && b = ' '

/-- A space directly before a newline. -/
def isSpNl (a b : Char) : Bool := a = ' ' && b = '\n'

/-- A space directly before a dot. -/
def isSpDot (a b : Char) : Bool := a = ' ' && b = '.'

/-- Every punctuation character is followed by a space, a dot, or the end of
the string. -/
def puncNext : Str → Bool
  | a :: b :: r => (!isPunc a || b = ' ' || b = '.') && puncNext (b :: r)
  | _ => true

/-- Every space directly followed by a newline or a punctuation character is
directly preceded by a punctuation character. -/
def spGuard : Str → Bool
  | a :: b :: c :: r => (!(b = ' ' && (c = '\n' || isPunc c)) || isPunc a) && spGuard (b :: c :: r)
  | _ => true

/-- The head window of `spGuard`: the string does not begin with a space
followed by a newline or punctuation character. -/
def spGuardHead : Str → Bool
  | b :: c :: _ => !(b = ' ' && (c = '\n' || isPunc c))
  | _ => true

/-- First character (if any) is not JS whitespace. -/
def headNotWs : Str → Bool
  | c :: _ => !isJsWs c
  | [] => true

/-- Trimmed on both ends. -/
def trimmedB (s : Str) : Bool := headNotWs s && headNotWs s.reverse

/-- Normal form: the invariants satisfied by every output of
`cleanTextBasic`. -/
def Norm (s : Str) : Prop :=
  zwsp ∉ s ∧ '\t' ∉ s ∧
  noPair isDbl s = true ∧ noPair isNlSp s = true ∧ noPair isSpDot s = true ∧
  puncNext s = true ∧ spGuard s = true ∧ trimmedB s = true

/-- Deletion of every space directly preceding a newline (the effect of
`pass3` on a normal-form string). -/
def delSpNl : Str → Str
  | [] => []
  | c :: cs => if c = ' ' ∧ cs.head? = some '\n' then delSpNl cs else c :: delSpNl cs

/-- Insertion of the spaces `pass4` adds back on a normal-form string: one
space between a punctuation character and a following dot, and one after a
final punctuation character. -/
def ins : Str → Str
  | [] => []
  | c :: cs =>
    if isPunc c then
      if cs.head? = some '.' then c :: ' ' :: ins cs
      else if cs.isEmpty then [c, ' ']
      else c :: ins cs
    else c :: ins cs

/-- Whether the last character is punctuation. -/
def endsPunc (s : Str) : Bool :=
  match s.getLast? with
  | some c => isPunc c
  | none => false

/-! ### Closure properties of the invariant scans -/

theorem noPair_tail {bad : Char → Char → Bool} {a : Char} {l : Str}
    (h : noPair bad (a :: l) = true) : noPair bad l = true := by
  cases l with
  | nil => simp [noPair]
  | cons b r =>
    simp only [noPair, Bool.and_eq_true] at h
    exact h.2

theorem noPair_head {bad : Char → Char → Bool} {a b : Char} {l : Str}
    (h : noPair bad (a :: b :: l) = true) : bad a b = false := by
  simp only [noPair, Bool.and_eq_true] at h
  simpa using h.1

theorem noPair_cons_of {bad : Char → Char → Bool} {a : Char} {l : Str}
    (h1 : noPair bad l = true) (h2 : ∀ b r, l = b :: r → bad a b = false) :
    noPair bad (a :: l) = true := by
  cases l with
  | nil => simp [noPair]
  | cons b r =>
    simp only [noPair, Bool.and_eq_true]
    exact ⟨by simp [h2 b r rfl], h1⟩

theorem noPair_append_right {bad : Char → Char → Bool} {u v : Str}
    (h : noPair bad (u ++ v) = true) : noPair bad v = true := by
  induction u with
  | nil => exact h
  | cons a u ih => exact ih (noPair_tail h)

theorem noPair_append_left {bad : Char → Char → Bool} {u v : Str}
    (h : noPair bad (u ++ v) = true) : noPair bad u = true := by
  induction u with
  | nil => simp [noPair]
  | cons a u ih =>
    cases u with
    | nil => simp [noPair]
    | cons b r =>
      simp only [List.cons_append, noPair, Bool.and_eq_true] at h ⊢
      exact ⟨h.1, ih h.2⟩

theorem puncNext_tail {a : Char} {l : Str}
    (h : puncNext (a :: l) = true) : puncNext l = true := by
  cases l with
  | nil => simp [puncNext]
  | cons b r =>
    simp only [puncNext, Bool.and_eq_true] at h
    exact h.2

theorem puncNext_head {a b : Char} {l : Str}
    (h : puncNext (a :: b :: l) = true) (hp : isPunc a = true) :
    b = ' ' ∨ b = '.' := by
  simp only [puncNext, Bool.and_eq_true, Bool.or_eq_true, Bool.not_eq_true',
    decide_eq_true_eq] at h
  rcases h.1 with (h' | h') | h'
  · rw [hp] at h'
    cases h'
  · exact Or.inl h'
  · exact Or.inr h'

theorem puncNext_cons_of {a : Char} {l : Str}
    (h1 : puncNext l = true)
    (h2 : ∀ b r, l = b :: r → isPunc a = true → b = ' ' ∨ b = '.') :
    puncNext (a :: l) = true := by
  cases l with
  | nil => simp [puncNext]
  | cons b r =>
    simp only [puncNext, Bool.and_eq_true, Bool.or_eq_true, Bool.not_eq_true',
      decide_eq_true_eq]
    refine ⟨?_, h1⟩
    by_cases hp : isPunc a = true
    · rcases h2 b r rfl hp with h' | h'
      · exact Or.inl (Or.inr h')
      · exact Or.inr h'
    · exact Or.inl (Or.inl (by simpa using hp))

theorem puncNext_append_right {u v : Str}
    (h : puncNext (u ++ v) = true) : puncNext v = true := by
  induction u with
  | nil => exact h
  | cons a u ih => exact ih (puncNext_tail h)

theorem puncNext_append_left {u v : Str}
    (h : puncNext (u ++ v) = true) : puncNext u = true := by
  induction u with
  | nil => simp [puncNext]
  | cons a u ih =>
    cases u with
    | nil => simp [puncNext]
    | cons b r =>
      simp only [List.cons_append, puncNext, Bool.and_eq_true] at h ⊢
      exact ⟨h.1, ih h.2⟩

theorem spGuard_tail {a : Char} {l : Str}
    (h : spGuard (a :: l) = true) : spGuard l = true := by
  cases l with
  | nil => simp [spGuard]
  | cons b r =>
    cases r with
    | nil => simp [spGuard]
    | cons c r' =>
      simp only [spGuard, Bool.and_eq_true] at h
      exact h.2

theorem spGuard_head {a b c : Char} {l : Str}
    (h : spGuard (a :: b :: c :: l) = true)
    (hb : b = ' ') (hc : c = '\n' ∨ isPunc c = true) : isPunc a = true := by
  subst hb
  simp only [spGuard, Bool.and_eq_true] at h
  cases hpa : isPunc a
  · rcases hc with hc | hc
    · rw [hpa, hc] at h
      simp at h
    · rw [hpa, hc] at h
      simp at h
  · rfl

theorem spGuard_cons_of {a : Char} {l : Str}
    (h1 : spGuard l = true)
    (h2 : ∀ b c r, l = b :: c :: r → b = ' ' → (c = '\n' ∨ isPunc c = true) →
      isPunc a = true) :
    spGuard (a :: l) = true := by
  cases l with
  | nil => simp [spGuard]
  | cons b r =>
    cases r with
    | nil => simp [spGuard]
    | cons c r' =>
      simp only [spGuard, Bool.and_eq_true]
      refine ⟨?_, h1⟩
      by_cases hb : b = ' '
      · by_cases hc : c = '\n' ∨ isPunc c = true
        · simp [h2 b c r' rfl hb hc]
        · push_neg at hc
          subst hb
          simp [hc.1, hc.2]
      · simp [hb]

theorem spGuard_append_right {u v : Str}
    (h : spGuard (u ++ v) = true) : spGuard v = true := by
  induction u with
  | nil => exact h
  | cons a u ih => exact ih (spGuard_tail h)

theorem spGuard_append_left {u v : Str}
    (h : spGuard (u ++ v) = true) : spGuard u = true := by
  induction u with
  | nil => simp [spGuard]
  | cons a u ih =>
    cases u with
    | nil => simp [spGuard]
    | cons b r =>
      cases r with
      | nil => simp [spGuard]
      | cons c r' =>
        simp only [List.cons_append, spGuard, Bool.and_eq_true] at h ⊢
        exact ⟨h.1, ih h.2⟩

/-! ### Behaviour of the passes on normal-form strings -/

theorem dropSp_of_head {l : Str} (h : ∀ c r, l = c :: r → c ≠ ' ') : dropSp l = l := by
  cases l with
  | nil => rfl
  | cons c r => simp [dropSp, h c r rfl]

theorem takeSp_of_head {l : Str} (h : ∀ c r, l = c :: r → c ≠ ' ') : takeSp l = [] := by
  cases l with
  | nil => rfl
  | cons c r => simp [takeSp, h c r rfl]

theorem stripZW_id {s : Str} (h : zwsp ∉ s) : stripZW s = s := by
  apply List.filter_eq_self.mpr
  intro a ha
  simp only [bne_iff_ne, ne_eq]
  intro heq
  exact h (heq ▸ ha)

theorem collapseST_id {s : Str} (ht : '\t' ∉ s) (hd : noPair isDbl s = true) :
    collapseST s = s := by
  induction s with
  | nil => rfl
  | cons c cs ih =>
    have hct : c ≠ '\t' := fun h => ht (h ▸ List.mem_cons_self c cs)
    have ht' : '\t' ∉ cs := fun h => ht (List.mem_cons_of_mem c h)
    cases cs with
    | nil =>
      by_cases hc : c = ' '
      · simp [collapseST, isSpaceTab, hc]
      · simp [collapseST, isSpaceTab, hc, hct]
    | cons d r =>
      by_cases hc : c = ' '
      · subst hc
        have hdd : isDbl ' ' d = false := noPair_head hd
        have hdsp : d ≠ ' ' := by
          intro h
          rw [h] at hdd
          simp [isDbl] at hdd
        have hdt : d ≠ '\t' := fun h => ht' (h ▸ List.mem_cons_self d r)
        have hstd : isSpaceTab d = false := by simp [isSpaceTab, hdsp, hdt]
        simp [collapseST, isSpaceTab, hstd, hdsp, hdt, ih ht' (noPair_tail hd)]
      · have : isSpaceTab c = false := by simp [isSpaceTab, hc, hct]
        simp [collapseST, this, ih ht' (noPair_tail hd)]

theorem delSpNl_cons_ne {c : Char} (cs : Str) (h : ¬(c = ' ' ∧ cs.head? = some '\n')) :
    delSpNl (c :: cs) = c :: delSpNl cs := by
  simp only [delSpNl, if_neg h]

theorem delSpNl_sp_nl (cs : Str) : delSpNl (' ' :: '\n' :: cs) = delSpNl ('\n' :: cs) := by
  simp [delSpNl]

theorem pass3_nl (cs : Str) : pass3 ('\n' :: cs) = '\n' :: pass3 (dropSp cs) := by
  rw [pass3]
  simp

theorem pass3_cons_ne {c : Char} (cs : Str) (h1 : c ≠ '\n') (h2 : c ≠ ' ') :
    pass3 (c :: cs) = c :: pass3 cs := by
  rw [pass3]
  simp [h1, h2]

theorem pass3_sp_nl {cs rest : Str} (h : dropSp cs = '\n' :: rest) :
    pass3 (' ' :: cs) = '\n' :: pass3 (dropSp rest) := by
  rw [pass3]
  rw [if_neg (by decide : ¬(' ' = '\n')), if_pos rfl, h]
  simp

theorem pass3_sp {cs : Str} (h : ∀ rest, dropSp cs ≠ '\n' :: rest) :
    pass3 (' ' :: cs) = (' ' :: takeSp cs) ++ pass3 (dropSp cs) := by
  rw [pass3]
  rw [if_neg (by decide : ¬(' ' = '\n')), if_pos rfl]
  rw [if_neg]
  intro hh
  cases hd : dropSp cs with
  | nil => rw [hd] at hh; simp at hh
  | cons x r =>
    rw [hd] at hh
    simp at hh
    exact h r (by rw [hd, hh])

theorem pass4_nil : pass4 [] = [] := by rw [pass4]

theorem pass4_sp_cons (p : Char) (cs : Str) :
    pass4 (' ' :: p :: cs) =
      if isPunc p then p :: ' ' :: pass4 (dropOneSp cs) else ' ' :: pass4 (p :: cs) := by
  rw [pass4]

theorem pass4_cons_ne {c : Char} (cs : Str) (hc : c ≠ ' ') :
    pass4 (c :: cs) =
      if isPunc c then c :: ' ' :: pass4 (dropOneSp cs) else c :: pass4 cs := by
  rw [pass4.eq_def]
  split
  · rename_i heq
    cases heq
  · rename_i heq
    injection heq with h1 h2
    exact absurd h1 hc
  · rename_i x y heq hne
    injection hne with h1 h2
    subst h1
    subst h2
    rfl

theorem pass4_sp_nil : pass4 [' '] = [' '] := by
  simp [pass4.eq_def, isPunc]

/-- On a string with no double spaces and no space directly after a newline,
`pass3` only deletes the spaces directly preceding a newline. -/
theorem pass3_delSpNl : ∀ s : Str, noPair isDbl s = true → noPair isNlSp s = true →
    pass3 s = delSpNl s := by
  intro s
  induction s using pass3.induct with
  | case1 =>
    intro _ _
    rw [pass3]
    rfl
  | case2 cs ih =>
    intro hd hn
    have hcs : ∀ c r, cs = c :: r → c ≠ ' ' := by
      intro c r hr hc
      subst hr
      subst hc
      have := noPair_head hn
      simp [isNlSp] at this
    have hds : dropSp cs = cs := dropSp_of_head hcs
    rw [pass3_nl, hds, delSpNl_cons_ne _ (by simp)]
    rw [hds] at ih
    rw [ih (noPair_tail hd) (noPair_tail hn)]
  | case3 cs hhead hne ih =>
    intro hd hn
    have hcs : ∀ c r, cs = c :: r → c ≠ ' ' := by
      intro c r hr hc
      subst hr
      subst hc
      have := noPair_head hd
      simp [isDbl] at this
    have hds : dropSp cs = cs := dropSp_of_head hcs
    rw [hds] at hhead ih
    cases cs with
    | nil => simp at hhead
    | cons x rest =>
      have hx : x = '\n' := by simpa using hhead
      subst hx
      have hrest : ∀ c r, rest = c :: r → c ≠ ' ' := by
        intro c r hr hc
        subst hr
        subst hc
        have := noPair_head (noPair_tail hn)
        simp [isNlSp] at this
      have hdr : dropSp rest = rest := dropSp_of_head hrest
      rw [pass3_sp_nl hds, hdr]
      have : delSpNl (' ' :: '\n' :: rest) = '\n' :: delSpNl rest := by
        simp [delSpNl]
      rw [this]
      simp only [List.tail_cons] at ih
      rw [hdr] at ih
      rw [ih (noPair_tail (noPair_tail hd)) (noPair_tail (noPair_tail hn))]
  | case4 cs hnh hne ih =>
    intro hd hn
    have hcs : ∀ c r, cs = c :: r → c ≠ ' ' := by
      intro c r hr hc
      subst hr
      subst hc
      have := noPair_head hd
      simp [isDbl] at this
    have hds : dropSp cs = cs := dropSp_of_head hcs
    have hts : takeSp cs = [] := takeSp_of_head hcs
    rw [pass3_sp (fun rest hr => hnh (by rw [hr]; rfl)), hts, hds]
    rw [delSpNl_cons_ne]
    · simp only [List.cons_append, List.nil_append, List.cons.injEq, true_and]
      rw [hds] at ih
      exact ih (noPair_tail hd) (noPair_tail hn)
    · rintro ⟨hsp, hh⟩
      rw [hds] at hnh
      exact hnh hh
  | case5 c cs h1 h2 ih =>
    intro hd hn
    rw [pass3_cons_ne cs h1 h2, delSpNl_cons_ne _ (fun hh => h2 hh.1)]
    rw [ih (noPair_tail hd) (noPair_tail hn)]

theorem isPunc_ne_sp {c : Char} (h : isPunc c = true) : c ≠ ' ' := by
  intro hc
  subst hc
  simp [isPunc] at h

theorem isPunc_ne_nl {c : Char} (h : isPunc c = true) : c ≠ '\n' := by
  intro hc
  subst hc
  simp [isPunc] at h

theorem isPunc_ne_dot {c : Char} (h : isPunc c = true) : c ≠ '.' := by
  intro hc
  subst hc
  simp [isPunc] at h

theorem spGuardHead_of_ne {b : Char} {l : Str} (h : b ≠ ' ') :
    spGuardHead (b :: l) = true := by
  cases l with
  | nil => rfl
  | cons c r => simp [spGuardHead, h]

theorem spGuardHead_nil : spGuardHead [] = true := rfl

theorem spGuardHead_single (b : Char) : spGuardHead [b] = true := rfl

theorem spGuardHead_of_spGuard {a : Char} {l : Str}
    (hsg : spGuard (a :: l) = true) (ha : isPunc a = false) :
    spGuardHead l = true := by
  cases l with
  | nil => rfl
  | cons b r =>
    cases r with
    | nil => rfl
    | cons c r' =>
      simp only [spGuardHead, Bool.not_eq_true', Bool.and_eq_false_iff]
      by_cases hb : b = ' '
      · by_cases hc : c = '\n' ∨ isPunc c = true
        · have := spGuard_head hsg hb hc
          rw [ha] at this
          cases this
        · push_neg at hc
          right
          simp [hc.1, hc.2]
      · left
        simp [hb]

theorem dropOneSp_sp (l : Str) : dropOneSp (' ' :: l) = l := by
  simp [dropOneSp]

theorem dropOneSp_cons_ne {c : Char} (l : Str) (h : c ≠ ' ') :
    dropOneSp (c :: l) = c :: l := by
  simp [dropOneSp, h]

/-- Core lemma: on a normal-form string, `pass4` applied to the `pass3` image
(`delSpNl s`) reinserts exactly the spaces described by `ins`. -/
theorem pass4_delSpNl : ∀ n s, s.length ≤ n → noPair isDbl s = true →
    noPair isSpDot s = true → puncNext s = true → spGuard s = true →
    spGuardHead s = true → pass4 (delSpNl s) = ins s := by
  intro n
  induction n with
  | zero =>
    intro s hs _ _ _ _ _
    have : s = [] := List.length_eq_zero.mp (Nat.le_zero.mp hs)
    subst this
    rw [delSpNl, pass4, ins]
  | succ n IH =>
    intro s hs hd hdot hpn hsg hsgh
    cases s with
    | nil => rw [delSpNl, pass4, ins]
    | cons c cs =>
      simp only [List.length_cons, Nat.add_le_add_iff_right] at hs
      by_cases hpc : isPunc c = true
      · -- punctuation head: cs is empty, or starts with '.' or ' '
        have hcne : c ≠ ' ' := isPunc_ne_sp hpc
        cases cs with
        | nil =>
          rw [delSpNl_cons_ne _ (by simp [hcne]), delSpNl]
          rw [pass4_cons_ne _ hcne, if_pos hpc]
          simp [dropOneSp, pass4, ins, hpc]
        | cons b cs2 =>
          rcases puncNext_head hpn hpc with hb | hb
          · -- b = ' '
            subst hb
            cases cs2 with
            | nil =>
              -- s = [c, ' ']
              rw [delSpNl_cons_ne _ (by simp [hcne])]
              have h1 : delSpNl [' '] = [' '] := by simp [delSpNl]
              rw [h1, pass4_cons_ne _ hcne, if_pos hpc, dropOneSp_sp]
              simp [pass4, ins, hpc, isPunc]
            | cons e cs3 =>
              by_cases he : e = '\n'
              · -- s = c :: ' ' :: '\n' :: cs3
                subst he
                have h1 : delSpNl (c :: ' ' :: '\n' :: cs3) =
                    c :: delSpNl ('\n' :: cs3) := by
                  rw [delSpNl_cons_ne _ (by simp [hcne])]
                  simp [delSpNl]
                have h2 : delSpNl ('\n' :: cs3) = '\n' :: delSpNl cs3 := by
                  simp [delSpNl]
                rw [h1, h2, pass4_cons_ne _ hcne, if_pos hpc,
                  dropOneSp_cons_ne _ (by decide), ← h2]
                have hlen : ('\n' :: cs3).length ≤ n := by
                  simp only [List.length_cons] at hs ⊢
                  omega
                rw [IH ('\n' :: cs3) hlen
                  (noPair_tail (noPair_tail hd)) (noPair_tail (noPair_tail hdot))
                  (puncNext_tail (puncNext_tail hpn)) (spGuard_tail (spGuard_tail hsg))
                  (spGuardHead_of_ne (by decide))]
                simp [ins, hpc]
              · -- s = c :: ' ' :: e :: cs3 with e not nl, not sp, not dot
                have hesp : e ≠ ' ' := by
                  have := noPair_head (noPair_tail hd)
                  intro hh
                  rw [hh] at this
                  simp [isDbl] at this
                have hedot : e ≠ '.' := by
                  have := noPair_head (noPair_tail hdot)
                  intro hh
                  rw [hh] at this
                  simp [isSpDot] at this
                have h1 : delSpNl (c :: ' ' :: e :: cs3) =
                    c :: ' ' :: delSpNl (e :: cs3) := by
                  rw [delSpNl_cons_ne _ (by simp [hcne])]
                  rw [delSpNl_cons_ne _ (by simp [he])]
                rw [h1, pass4_cons_ne _ hcne, if_pos hpc, dropOneSp_sp]
                have hlen : (e :: cs3).length ≤ n := by
                  simp only [List.length_cons] at hs ⊢
                  omega
                rw [IH (e :: cs3) hlen
                  (noPair_tail (noPair_tail hd)) (noPair_tail (noPair_tail hdot))
                  (puncNext_tail (puncNext_tail hpn)) (spGuard_tail (spGuard_tail hsg))
                  (spGuardHead_of_ne hesp)]
                simp [ins, hpc, isPunc]
          · -- b = '.'
            subst hb
            have h1 : delSpNl (c :: '.' :: cs2) = c :: '.' :: delSpNl cs2 := by
              rw [delSpNl_cons_ne _ (by simp [hcne])]
              rw [delSpNl_cons_ne _ (by simp)]
            rw [h1, pass4_cons_ne _ hcne, if_pos hpc,
              dropOneSp_cons_ne _ (by decide)]
            have h2 : delSpNl ('.' :: cs2) = '.' :: delSpNl cs2 := by
              rw [delSpNl_cons_ne _ (by simp)]
            rw [← h2]
            have hlen : ('.' :: cs2).length ≤ n := by
              simp only [List.length_cons] at hs ⊢
              omega
            rw [IH ('.' :: cs2) hlen
              (noPair_tail hd) (noPair_tail hdot)
              (puncNext_tail hpn) (spGuard_tail hsg)
              (spGuardHead_of_ne (by decide))]
            simp [ins, hpc]
      · -- non-punctuation head
        by_cases hcsp : c = ' '
        · -- head is a space
          subst hcsp
          cases cs with
          | nil =>
            have h1 : delSpNl [' '] = [' '] := by simp [delSpNl]
            rw [h1, pass4_sp_nil]
            simp [ins, isPunc]
          | cons d cs2 =>
            have hdnl : d ≠ '\n' ∧ isPunc d = false := by
              have := hsgh
              simp only [spGuardHead, Bool.not_eq_true', Bool.and_eq_false_iff] at this
              rcases this with h' | h'
              · simp at h'
              · simp only [Bool.or_eq_false_iff, decide_eq_false_iff_not] at h'
                exact ⟨h'.1, h'.2⟩
            have hdsp : d ≠ ' ' := by
              have := noPair_head hd
              intro hh
              rw [hh] at this
              simp [isDbl] at this
            have h1 : delSpNl (' ' :: d :: cs2) = ' ' :: d :: delSpNl cs2 := by
              rw [delSpNl_cons_ne _ (by simp [hdnl.1]), delSpNl_cons_ne _ (by simp [hdsp])]
            rw [h1, pass4_sp_cons, if_neg (by simp [hdnl.2])]
            have h2 : delSpNl (d :: cs2) = d :: delSpNl cs2 := by
              rw [delSpNl_cons_ne _ (by simp [hdsp])]
            rw [← h2]
            have hlen : (d :: cs2).length ≤ n := by
              simp only [List.length_cons] at hs ⊢
              omega
            rw [IH (d :: cs2) hlen (noPair_tail hd) (noPair_tail hdot)
              (puncNext_tail hpn) (spGuard_tail hsg) (spGuardHead_of_ne hdsp)]
            simp [ins, isPunc]
        · -- plain character
          have h1 : delSpNl (c :: cs) = c :: delSpNl cs := by
            rw [delSpNl_cons_ne _ (by simp [hcsp])]
          rw [h1, pass4_cons_ne _ hcsp, if_neg hpc]
          rw [IH cs hs (noPair_tail hd) (noPair_tail hdot)
            (puncNext_tail hpn) (spGuard_tail hsg) (spGuardHead_of_spGuard hsg (by simpa using hpc))]
          simp [ins, hpc]

theorem ins_head (d : Char) (r : Str) : (ins (d :: r)).head? = some d := by
  by_cases hp : isPunc d = true
  · simp only [ins, hp, if_true]
    by_cases h1 : r.head? = some '.'
    · simp [h1]
    · by_cases h2 : r.isEmpty <;> simp [h1, h2]
  · simp [ins, hp]

theorem endsPunc_cons {cs : Str} (c : Char) (h : cs ≠ []) :
    endsPunc (c :: cs) = endsPunc cs := by
  cases cs with
  | nil => exact absurd rfl h
  | cons b l => simp [endsPunc, List.getLast?_cons_cons]

theorem endsPunc_single (c : Char) : endsPunc [c] = isPunc c := by
  simp [endsPunc]

/-- On a string with no space-dot pair where every punctuation character is
followed by a space, a dot or the end, `pass5` removes exactly the spaces that
`ins` inserted, leaving a possible trailing space. -/
theorem pass5_ins : ∀ s : Str, noPair isSpDot s = true → puncNext s = true →
    pass5 (ins s) = s ++ (if endsPunc s then [' '] else []) := by
  intro s
  induction s using ins.induct with
  | case1 =>
    intro _ _
    simp [ins, pass5, endsPunc]
  | case2 c cs hp hh ih =>
    intro hdot hpn
    have hcs : cs ≠ [] := by
      intro h
      rw [h] at hh
      simp at hh
    have hins : ins (c :: cs) = c :: ' ' :: ins cs := by
      simp only [ins, hp, if_true, hh, if_pos]
    rw [hins]
    have hcne : c ≠ ' ' := isPunc_ne_sp hp
    have h1 : pass5 (c :: ' ' :: ins cs) = c :: pass5 (' ' :: ins cs) := by
      simp only [pass5]
      rw [if_neg (by simp [hcne])]
    have hh2 : (ins cs).head? = some '.' := by
      cases cs with
      | nil => simp at hh
      | cons b l =>
        have hb : b = '.' := by simpa using hh
        subst hb
        exact ins_head '.' l
    have h2 : pass5 (' ' :: ins cs) = pass5 (ins cs) := by
      simp only [pass5]
      rw [if_pos (by simp [hh2])]
    rw [h1, h2, ih (noPair_tail hdot) (puncNext_tail hpn), endsPunc_cons c hcs]
    rfl
  | case3 c cs hp hh hemp =>
    intro hdot hpn
    have hcsnil : cs = [] := by
      cases cs with
      | nil => rfl
      | cons b l => simp at hemp
    subst hcsnil
    have hcne : c ≠ ' ' := isPunc_ne_sp hp
    have hins : ins [c] = [c, ' '] := by
      simp [ins, hp]
    rw [hins]
    have : pass5 [c, ' '] = c :: pass5 [' '] := by
      simp only [pass5]
      rw [if_neg (by simp [hcne])]
    rw [this]
    have : pass5 [' '] = [' '] := by
      simp [pass5]
    rw [this, endsPunc_single, hp]
    rfl
  | case4 c cs hp hh hemp ih =>
    intro hdot hpn
    have hcs : cs ≠ [] := by
      intro h
      rw [h] at hemp
      simp at hemp
    have hins : ins (c :: cs) = c :: ins cs := by
      simp only [ins, hp, if_true]
      rw [if_neg hh, if_neg hemp]
    rw [hins]
    have hcne : c ≠ ' ' := isPunc_ne_sp hp
    have h1 : pass5 (c :: ins cs) = c :: pass5 (ins cs) := by
      simp only [pass5]
      rw [if_neg (by simp [hcne])]
    rw [h1, ih (noPair_tail hdot) (puncNext_tail hpn), endsPunc_cons c hcs]
    rfl
  | case5 c cs hp ih =>
    intro hdot hpn
    have hins : ins (c :: cs) = c :: ins cs := by
      simp [ins, hp]
    rw [hins]
    have h1 : pass5 (c :: ins cs) = c :: pass5 (ins cs) := by
      simp only [pass5]
      rw [if_neg]
      rintro ⟨hc, hhead⟩
      subst hc
      cases cs with
      | nil => simp [ins] at hhead
      | cons b l =>
        rw [ins_head b l] at hhead
        have hb : b = '.' := by simpa using hhead
        have := noPair_head hdot
        rw [hb] at this
        simp [isSpDot] at this
    rw [h1, ih (noPair_tail hdot) (puncNext_tail hpn)]
    cases cs with
    | nil =>
      simp [endsPunc_single, hp, endsPunc]
    | cons b l =>
      rw [endsPunc_cons c (by simp)]
      rfl

theorem pass6_id {s : Str} (hd : noPair isDbl s = true) : pass6 s = s := by
  induction s with
  | nil => rfl
  | cons c cs ih =>
    cases cs with
    | nil => rfl
    | cons d r =>
      have hcd : isDbl c d = false := noPair_head hd
      have : (c = ' ' && d = ' ') = false := by
        simpa [isDbl] using hcd
      simp only [pass6, this, Bool.false_eq_true, if_false]
      rw [ih (noPair_tail hd)]

theorem dropWhile_of_head {p : Char → Bool} {l : Str}
    (h : ∀ c r, l = c :: r → p c = false) : l.dropWhile p = l := by
  cases l with
  | nil => rfl
  | cons c r => simp [List.dropWhile_cons, h c r rfl]

theorem jsTrim_id {s : Str} (h : trimmedB s = true) : jsTrim s = s := by
  simp only [trimmedB, Bool.and_eq_true] at h
  have e1 : s.dropWhile isJsWs = s := dropWhile_of_head (by
    intro c r hr
    have h1 := h.1
    rw [hr] at h1
    simpa [headNotWs] using h1)
  have e2 : s.reverse.dropWhile isJsWs = s.reverse := dropWhile_of_head (by
    intro c r hr
    have h2 := h.2
    rw [hr] at h2
    simpa [headNotWs] using h2)
  unfold jsTrim
  rw [e1, e2, List.reverse_reverse]

theorem jsTrim_append_sp {s : Str} (h : trimmedB s = true) (hne : s ≠ []) :
    jsTrim (s ++ [' ']) = s := by
  simp only [trimmedB, Bool.and_eq_true] at h
  have e1 : (s ++ [' ']).dropWhile isJsWs = s ++ [' '] := dropWhile_of_head (by
    intro c r hr
    cases s with
    | nil => exact absurd rfl hne
    | cons a t =>
      have h1 := h.1
      simp only [List.cons_append, List.cons.injEq] at hr
      rw [← hr.1]
      simpa [headNotWs] using h1)
  have e2 : s.reverse.dropWhile isJsWs = s.reverse := dropWhile_of_head (by
    intro c r hr
    have h2 := h.2
    rw [hr] at h2
    simpa [headNotWs] using h2)
  unfold jsTrim
  rw [e1, List.reverse_append]
  have hrev : ([' '] : Str).reverse = [' '] := rfl
  rw [hrev]
  have hdw : List.dropWhile isJsWs (' ' :: s.reverse) = List.dropWhile isJsWs s.reverse := by
    simp [List.dropWhile_cons, isJsWs]
  rw [List.singleton_append, hdw, e2, List.reverse_reverse]

theorem noPair_append_single {bad : Char → Char → Bool} {s : Str} {x : Char}
    (h : noPair bad s = true)
    (h2 : ∀ l, s.getLast? = some l → bad l x = false) :
    noPair bad (s ++ [x]) = true := by
  induction s with
  | nil => simp [noPair]
  | cons a t ih =>
    cases t with
    | nil =>
      have hax : bad a x = false := h2 a (by simp)
      simp [noPair, hax]
    | cons b r =>
      have hih := ih (noPair_tail h) (by
        intro l hl
        apply h2
        rw [List.getLast?_cons_cons]
        exact hl)
      simp only [List.cons_append] at hih ⊢
      simp only [noPair, Bool.and_eq_true] at h ⊢
      exact ⟨h.1, hih⟩

/-- Every normal-form string is a fixed point of the normalizer. -/
theorem cleanTextBasic_fix {s : Str} (h : Norm s) : cleanTextBasic s = s := by
  obtain ⟨hz, ht, hd, hn, hdot, hpn, hsg, htr⟩ := h
  have hsgh : spGuardHead s = true := by
    cases s with
    | nil => rfl
    | cons b l =>
      apply spGuardHead_of_ne
      have hb : isJsWs b = false := by
        simp only [trimmedB, Bool.and_eq_true] at htr
        simpa [headNotWs] using htr.1
      intro hbsp
      rw [hbsp] at hb
      simp [isJsWs] at hb
  unfold cleanTextBasic
  rw [stripZW_id hz, collapseST_id ht hd, pass3_delSpNl s hd hn,
    pass4_delSpNl s.length s (Nat.le_refl _) hd hdot hpn hsg hsgh,
    pass5_ins s hdot hpn]
  by_cases hep : endsPunc s = true
  · rw [if_pos hep]
    have hne : s ≠ [] := by
      intro hnil
      rw [hnil] at hep
      simp [endsPunc] at hep
    have hdx : noPair isDbl (s ++ [' ']) = true := by
      apply noPair_append_single hd
      intro l hl
      have : isPunc l = true := by
        simpa [endsPunc, hl] using hep
      simp [isDbl, isPunc_ne_sp this]
    rw [pass6_id hdx]
    exact jsTrim_append_sp htr hne
  · rw [if_neg hep]
    rw [List.append_nil, pass6_id hd]
    exact jsTrim_id htr

/-! ### Forward invariants: the normalizer's output is in normal form -/

theorem mem_dropSp {c : Char} : ∀ {l : Str}, c ∈ dropSp l → c ∈ l := by
  intro l
  induction l with
  | nil => intro h; simp [dropSp] at h
  | cons a r ih =>
    intro h
    simp only [dropSp] at h
    by_cases ha : a = ' '
    · rw [if_pos ha] at h
      exact List.mem_cons_of_mem _ (ih h)
    · rw [if_neg ha] at h
      exact h

theorem mem_takeSp {c : Char} : ∀ {l : Str}, c ∈ takeSp l → c = ' ' := by
  intro l
  induction l with
  | nil => intro h; simp [takeSp] at h
  | cons a r ih =>
    intro h
    simp only [takeSp] at h
    by_cases ha : a = ' '
    · rw [if_pos ha] at h
      rcases List.mem_cons.mp h with h' | h'
      · rw [h', ha]
      · exact ih h'
    · rw [if_neg ha] at h
      simp at h

theorem not_mem_collapseST {x : Char} (hsp : x ≠ ' ') :
    ∀ {s : Str}, x ∉ s → x ∉ collapseST s := by
  intro s
  induction s using collapseST.induct with
  | case1 =>
    intro _ h
    simp [collapseST] at h
  | case2 c hc =>
    intro _ h
    simp only [collapseST, hc, if_true] at h
    exact hsp (by simpa using h)
  | case3 c hc =>
    intro hx h
    simp only [collapseST, hc, if_false] at h
    exact hx h
  | case4 c d cs hc hd ih =>
    intro hx h
    simp only [collapseST, hc, hd, if_true] at h
    exact ih (fun hm => hx (List.mem_cons_of_mem _ hm)) h
  | case5 c d cs hc hd ih =>
    intro hx h
    simp only [collapseST, hc, hd, if_true, if_false] at h
    rcases List.mem_cons.mp h with h' | h'
    · exact hsp h'
    · exact ih (fun hm => hx (List.mem_cons_of_mem _ hm)) h'
  | case6 c d cs hc ih =>
    intro hx h
    simp only [collapseST, hc, if_false] at h
    rcases List.mem_cons.mp h with h' | h'
    · exact hx (h' ▸ List.mem_cons_self _ _)
    · exact ih (fun hm => hx (List.mem_cons_of_mem _ hm)) h'

theorem not_mem_pass3 {x : Char} (hsp : x ≠ ' ') (hnl : x ≠ '\n') :
    ∀ {s : Str}, x ∉ s → x ∉ pass3 s := by
  intro s
  induction s using pass3.induct with
  | case1 =>
    intro _ h
    rw [pass3] at h
    simp at h
  | case2 cs ih =>
    intro hx h
    rw [pass3_nl] at h
    rcases List.mem_cons.mp h with h' | h'
    · exact hnl h'
    · exact ih (fun hm => hx (List.mem_cons_of_mem _ (mem_dropSp hm))) h'
  | case3 cs hhead hne ih =>
    intro hx h
    obtain ⟨rest, hrest⟩ : ∃ rest, dropSp cs = '\n' :: rest := by
      cases hd : dropSp cs with
      | nil =>
        rw [hd] at hhead
        simp at hhead
      | cons a r =>
        rw [hd] at hhead
        simp only [List.head?_cons, Option.some.injEq] at hhead
        exact ⟨r, by rw [hhead]⟩
    rw [pass3_sp_nl hrest] at h
    have htl : (dropSp cs).tail = rest := by rw [hrest]; rfl
    rcases List.mem_cons.mp h with h' | h'
    · exact hnl h'
    · rw [htl] at ih
      apply ih _ h'
      intro hm
      apply hx
      apply List.mem_cons_of_mem
      have hm1 : x ∈ rest := mem_dropSp hm
      have hm2 : x ∈ dropSp cs := by
        rw [hrest]
        exact List.mem_cons_of_mem _ hm1
      exact mem_dropSp hm2
  | case4 cs hnh hne ih =>
    intro hx h
    rw [pass3_sp (fun rest hr => hnh (by rw [hr]; rfl))] at h
    rcases List.mem_append.mp h with h' | h'
    · rcases List.mem_cons.mp h' with h2 | h2
      · exact hsp h2
      · exact hsp (mem_takeSp h2)
    · exact ih (fun hm => hx (List.mem_cons_of_mem _ (mem_dropSp hm))) h'
  | case5 c cs h1 h2 ih =>
    intro hx h
    rw [pass3_cons_ne cs h1 h2] at h
    rcases List.mem_cons.mp h with h' | h'
    · exact hx (h' ▸ List.mem_cons_self _ _)
    · exact ih (fun hm => hx (List.mem_cons_of_mem _ hm)) h'

theorem mem_dropOneSp {c : Char} {l : Str} (h : c ∈ dropOneSp l) : c ∈ l := by
  cases l with
  | nil => simp [dropOneSp] at h
  | cons a r =>
    simp only [dropOneSp] at h
    by_cases ha : a = ' '
    · rw [if_pos ha] at h
      exact List.mem_cons_of_mem _ h
    · rw [if_neg ha] at h
      exact h

theorem noPair_suffix {bad : Char → Char → Bool} {l' l : Str}
    (hs : l' <:+ l) (h : noPair bad l = true) : noPair bad l' = true := by
  obtain ⟨u, hu⟩ := hs
  exact noPair_append_right (hu ▸ h)

theorem puncNext_suffix {l' l : Str} (hs : l' <:+ l) (h : puncNext l = true) :
    puncNext l' = true := by
  obtain ⟨u, hu⟩ := hs
  exact puncNext_append_right (hu ▸ h)

theorem spGuard_suffix {l' l : Str} (hs : l' <:+ l) (h : spGuard l = true) :
    spGuard l' = true := by
  obtain ⟨u, hu⟩ := hs
  exact spGuard_append_right (hu ▸ h)

theorem dropSp_suffix (l : Str) : dropSp l <:+ l := by
  induction l with
  | nil => exact List.suffix_refl _
  | cons a r ih =>
    simp only [dropSp]
    by_cases ha : a = ' '
    · rw [if_pos ha]
      exact ih.trans (List.suffix_cons a r)
    · rw [if_neg ha]

theorem dropOneSp_suffix (l : Str) : dropOneSp l <:+ l := by
  cases l with
  | nil => exact List.suffix_refl _
  | cons a r =>
    simp only [dropOneSp]
    by_cases ha : a = ' '
    · rw [if_pos ha]
      exact List.suffix_cons a r
    · rw [if_neg ha]

theorem pass3_head_ne {x : Char} (r : Str) (hx : x ≠ ' ') :
    (pass3 (x :: r)).head? = some x := by
  by_cases hnl : x = '\n'
  · subst hnl
    rw [pass3_nl]
    rfl
  · rw [pass3_cons_ne r hnl hx]
    rfl

theorem pass4_head_ne {x : Char} (r : Str) (hx : x ≠ ' ') :
    (pass4 (x :: r)).head? = some x := by
  rw [pass4_cons_ne r hx]
  by_cases hp : isPunc x = true
  · rw [if_pos hp]
    rfl
  · rw [if_neg hp]
    rfl

/-- Inversion: the only way `pass4` output starts with a space is a copied
space followed by a non-punctuation character (or a lone trailing space). -/
theorem pass4_sp_inv : ∀ {cs : Str} {X : Str}, pass4 cs = ' ' :: X →
    (cs = [' '] ∧ X = []) ∨
    (∃ p cs2, cs = ' ' :: p :: cs2 ∧ isPunc p = false ∧ X = pass4 (p :: cs2)) := by
  intro cs X h
  cases cs with
  | nil =>
    rw [pass4] at h
    cases h
  | cons c cs' =>
    by_cases hc : c = ' '
    · subst hc
      cases cs' with
      | nil =>
        rw [pass4_sp_nil] at h
        left
        exact ⟨rfl, by injection h with _ h2; exact h2.symm⟩
      | cons p cs2 =>
        rw [pass4_sp_cons] at h
        by_cases hp : isPunc p = true
        · rw [if_pos hp] at h
          injection h with h1 _
          exact absurd h1 (isPunc_ne_sp hp)
        · rw [if_neg hp] at h
          injection h with _ h2
          right
          exact ⟨p, cs2, rfl, by simpa using hp, h2.symm⟩
    · rw [pass4_cons_ne _ hc] at h
      by_cases hp : isPunc c = true
      · rw [if_pos hp] at h
        injection h with h1 _
        exact absurd h1 hc
      · rw [if_neg hp] at h
        injection h with h1 _
        exact absurd h1 hc

/-- Inversion: the only way `pass5` output starts with a space is a copied
space whose successor was not deleted into a dot. -/
theorem pass5_sp_inv : ∀ {cs X : Str}, pass5 cs = ' ' :: X →
    ∃ r2, cs = ' ' :: r2 ∧ r2.head? ≠ some '.' ∧ X = pass5 r2 := by
  intro cs
  induction cs with
  | nil =>
    intro X h
    simp [pass5] at h
  | cons c r ih =>
    intro X h
    simp only [pass5] at h
    by_cases hcond : c = ' ' ∧ r.head? = some '.'
    · rw [if_pos hcond] at h
      obtain ⟨r2, hr2, hh, hX⟩ := ih h
      rw [hr2] at hcond
      simp at hcond
    · rw [if_neg hcond] at h
      injection h with h1 h2
      subst h1
      refine ⟨r, rfl, ?_, h2.symm⟩
      intro hdot
      exact hcond ⟨rfl, hdot⟩

theorem pass5_head_cases (x : Char) (r : Str) :
    (pass5 (x :: r)).head? = some x ∨
    ((pass5 (x :: r)).head? = some '.' ∧ x = ' ') := by
  simp only [pass5]
  by_cases hcond : x = ' ' ∧ r.head? = some '.'
  · rw [if_pos hcond]
    right
    obtain ⟨hx, hr⟩ := hcond
    cases r with
    | nil => simp at hr
    | cons b l =>
      have hb : b = '.' := by simpa using hr
      subst hb
      constructor
      · simp only [pass5]
        rw [if_neg (by simp)]
        rfl
      · exact hx
  · rw [if_neg hcond]
    left
    rfl

theorem not_mem_pass4 {x : Char} (hsp : x ≠ ' ') :
    ∀ {s : Str}, x ∉ s → x ∉ pass4 s := by
  intro s
  induction s using pass4.induct with
  | case1 =>
    intro _ h
    rw [pass4] at h
    simp at h
  | case2 p cs hp ih =>
    intro hx h
    rw [pass4_sp_cons, if_pos hp] at h
    rcases List.mem_cons.mp h with h' | h'
    · exact hx (h' ▸ List.mem_cons_of_mem _ (List.mem_cons_self _ _))
    · rcases List.mem_cons.mp h' with h2 | h2
      · exact hsp h2
      · exact ih (fun hm => hx (by
          have := mem_dropOneSp hm
          exact List.mem_cons_of_mem _ (List.mem_cons_of_mem _ this))) h2
  | case3 p cs hp ih =>
    intro hx h
    rw [pass4_sp_cons, if_neg hp] at h
    rcases List.mem_cons.mp h with h' | h'
    · exact hsp h'
    · exact ih (fun hm => hx (by
        rcases List.mem_cons.mp hm with h2 | h2
        · exact h2 ▸ List.mem_cons_of_mem _ (List.mem_cons_self _ _)
        · exact List.mem_cons_of_mem _ (List.mem_cons_of_mem _ h2))) h'
  | case4 c cs hpat hp ih =>
    intro hx h
    have hc : c ≠ ' ' := isPunc_ne_sp hp
    rw [pass4_cons_ne _ hc, if_pos hp] at h
    rcases List.mem_cons.mp h with h' | h'
    · exact hx (h' ▸ List.mem_cons_self _ _)
    · rcases List.mem_cons.mp h' with h2 | h2
      · exact hsp h2
      · exact ih (fun hm => hx (List.mem_cons_of_mem _ (mem_dropOneSp hm))) h2
  | case5 c cs hpat hp ih =>
    intro hx h
    by_cases hc : c = ' '
    · subst hc
      cases cs with
      | nil =>
        rw [pass4_sp_nil] at h
        exact hsp (by simpa using h)
      | cons p cs2 => exact hpat p cs2 rfl rfl
    · rw [pass4_cons_ne _ hc, if_neg hp] at h
      rcases List.mem_cons.mp h with h' | h'
      · exact hx (h' ▸ List.mem_cons_self _ _)
      · exact ih (fun hm => hx (List.mem_cons_of_mem _ hm)) h'

theorem mem_pass5 {x : Char} : ∀ {s : Str}, x ∈ pass5 s → x ∈ s := by
  intro s
  induction s with
  | nil =>
    intro h
    simp [pass5] at h
  | cons c cs ih =>
    intro h
    simp only [pass5] at h
    by_cases hcond : c = ' ' ∧ cs.head? = some '.'
    · rw [if_pos hcond] at h
      exact List.mem_cons_of_mem _ (ih h)
    · rw [if_neg hcond] at h
      rcases List.mem_cons.mp h with h' | h'
      · exact h' ▸ List.mem_cons_self _ _
      · exact List.mem_cons_of_mem _ (ih h')

theorem mem_pass6 {x : Char} : ∀ {s : Str}, x ∈ pass6 s → x ∈ s := by
  intro s
  induction s with
  | nil =>
    intro h
    simp [pass6] at h
  | cons c cs ih =>
    cases cs with
    | nil =>
      intro h
      simpa [pass6] using h
    | cons d r =>
      intro h
      simp only [pass6] at h
      by_cases hcond : (c = ' ' && d = ' ') = true
      · rw [if_pos hcond] at h
        exact List.mem_cons_of_mem _ (ih h)
      · rw [if_neg hcond] at h
        rcases List.mem_cons.mp h with h' | h'
        · exact h' ▸ List.mem_cons_self _ _
        · exact List.mem_cons_of_mem _ (ih h')

theorem jsTrim_infx (s : Str) : jsTrim s <:+: s := by
  unfold jsTrim
  have h1 : s.dropWhile isJsWs <:+ s := List.dropWhile_suffix _
  have h2 : (s.dropWhile isJsWs).reverse.dropWhile isJsWs <:+
      (s.dropWhile isJsWs).reverse := List.dropWhile_suffix _
  have h3 : ((s.dropWhile isJsWs).reverse.dropWhile isJsWs).reverse <+:
      s.dropWhile isJsWs := by
    have := List.reverse_prefix.mpr h2
    simpa using this
  exact h3.isInfix.trans h1.isInfix

theorem mem_jsTrim {x : Char} {s : Str} (h : x ∈ jsTrim s) : x ∈ s :=
  (jsTrim_infx s).subset h

theorem collapseST_no_tab : ∀ s : Str, '\t' ∉ collapseST s := by
  intro s
  induction s using collapseST.induct with
  | case1 => simp [collapseST]
  | case2 c hc => simp [collapseST, hc]
  | case3 c hc =>
    simp only [collapseST, hc, if_false]
    intro h
    have h' : '\t' = c := List.mem_singleton.mp h
    rw [← h'] at hc
    simp [isSpaceTab] at hc
  | case4 c d cs hc hd ih =>
    simpa [collapseST, hc, hd] using ih
  | case5 c d cs hc hd ih =>
    simp only [collapseST, hc, hd, if_true, if_false]
    intro h
    rcases List.mem_cons.mp h with h' | h'
    · cases h'
    · exact ih h'
  | case6 c d cs hc ih =>
    simp only [collapseST, hc, if_false]
    intro h
    rcases List.mem_cons.mp h with h' | h'
    · rw [← h'] at hc
      simp [isSpaceTab] at hc
    · exact ih h'

theorem collapseST_head {d : Char} (cs : Str) (hd : isSpaceTab d = false) :
    (collapseST (d :: cs)).head? = some d := by
  cases cs with
  | nil => simp [collapseST, hd]
  | cons e r => simp [collapseST, hd]

theorem collapseST_noDbl : ∀ s : Str, noPair isDbl (collapseST s) = true := by
  intro s
  induction s using collapseST.induct with
  | case1 => simp [collapseST, noPair]
  | case2 c hc => simp [collapseST, hc, noPair]
  | case3 c hc => simp [collapseST, hc, noPair]
  | case4 c d cs hc hd ih => simpa [collapseST, hc, hd] using ih
  | case5 c d cs hc hd ih =>
    simp only [collapseST, hc, hd, if_true, if_false]
    apply noPair_cons_of ih
    intro b r hbr
    have : b = d := by
      have := collapseST_head cs (by simpa using hd)
      rw [hbr] at this
      simpa using this
    subst this
    have hbsp : b ≠ ' ' := by
      intro hsp
      rw [hsp] at hd
      simp [isSpaceTab] at hd
    simp [isDbl, hbsp]
  | case6 c d cs hc ih =>
    simp only [collapseST, hc, if_false]
    apply noPair_cons_of ih
    intro b r hbr
    have hcsp : c ≠ ' ' := by
      intro hsp
      rw [hsp] at hc
      simp [isSpaceTab] at hc
    simp [isDbl, hcsp]

theorem dropSp_head {l : Str} {c : Char} (h : (dropSp l).head? = some c) : c ≠ ' ' := by
  induction l with
  | nil => simp [dropSp] at h
  | cons a r ih =>
    simp only [dropSp] at h
    by_cases ha : a = ' '
    · rw [if_pos ha] at h
      exact ih h
    · rw [if_neg ha] at h
      simp only [List.head?_cons, Option.some.injEq] at h
      rw [← h]
      exact ha

/-- `pass3` preserves the absence of double spaces. -/
theorem pass3_noDbl : ∀ s : Str, noPair isDbl s = true → noPair isDbl (pass3 s) = true := by
  intro s
  induction s using pass3.induct with
  | case1 =>
    intro _
    rw [pass3]
    simp [noPair]
  | case2 cs ih =>
    intro hd
    rw [pass3_nl]
    apply noPair_cons_of (ih (noPair_suffix (dropSp_suffix cs) (noPair_tail hd)))
    intro b r hbr
    simp [isDbl]
  | case3 cs hhead hne ih =>
    intro hd
    obtain ⟨rest, hrest⟩ : ∃ rest, dropSp cs = '\n' :: rest := by
      cases hdd : dropSp cs with
      | nil =>
        rw [hdd] at hhead
        simp at hhead
      | cons a r =>
        rw [hdd] at hhead
        simp only [List.head?_cons, Option.some.injEq] at hhead
        exact ⟨r, by rw [hhead]⟩
    rw [pass3_sp_nl hrest]
    have htl : (dropSp cs).tail = rest := by rw [hrest]; rfl
    rw [htl] at ih
    have hrest_suff : rest <:+ cs := by
      have h1 : rest <:+ dropSp cs := by
        rw [hrest]
        exact List.suffix_cons _ _
      exact h1.trans (dropSp_suffix cs)
    apply noPair_cons_of (ih (noPair_suffix ((dropSp_suffix rest).trans hrest_suff) (noPair_tail hd)))
    intro b r hbr
    simp [isDbl]
  | case4 cs hnh hne ih =>
    intro hd
    rw [pass3_sp (fun rest hr => hnh (by rw [hr]; rfl))]
    have hcs : ∀ c r, cs = c :: r → c ≠ ' ' := by
      intro c r hr hc
      subst hr
      subst hc
      have := noPair_head hd
      simp [isDbl] at this
    have hts : takeSp cs = [] := takeSp_of_head hcs
    have hds : dropSp cs = cs := dropSp_of_head hcs
    rw [hts, hds]
    simp only [List.cons_append, List.nil_append]
    apply noPair_cons_of (by rw [hds] at ih; exact ih (noPair_tail hd))
    intro b r hbr
    cases cs with
    | nil =>
      rw [pass3] at hbr
      cases hbr
    | cons x xs =>
      have hx : x ≠ ' ' := hcs x xs rfl
      have hx2 : x ≠ '\n' := by
        intro hxx
        subst hxx
        rw [hds] at hnh
        simp at hnh
      have := pass3_head_ne xs hx
      rw [hbr] at this
      simp only [List.head?_cons, Option.some.injEq] at this
      rw [← this] at hx
      simp [isDbl, hx]
  | case5 c cs h1 h2 ih =>
    intro hd
    rw [pass3_cons_ne cs h1 h2]
    apply noPair_cons_of (ih (noPair_tail hd))
    intro b r hbr
    simp [isDbl, h2]

theorem pass3_dropSp_head {l : Str} {b : Char}
    (h : (pass3 (dropSp l)).head? = some b) : b ≠ ' ' := by
  cases hd : dropSp l with
  | nil =>
    rw [hd] at h
    rw [pass3] at h
    cases h
  | cons x r =>
    have hx : x ≠ ' ' := dropSp_head (by rw [hd]; rfl)
    rw [hd, pass3_head_ne r hx] at h
    simp only [Option.some.injEq] at h
    rw [← h]
    exact hx

/-- `pass3` leaves no space directly after a newline. -/
theorem pass3_noNlSp : ∀ s : Str, noPair isDbl s = true →
    noPair isNlSp (pass3 s) = true := by
  intro s
  induction s using pass3.induct with
  | case1 =>
    intro _
    rw [pass3]
    simp [noPair]
  | case2 cs ih =>
    intro hd
    rw [pass3_nl]
    apply noPair_cons_of (ih (noPair_suffix (dropSp_suffix cs) (noPair_tail hd)))
    intro b r hbr
    have hb : b ≠ ' ' := pass3_dropSp_head (by rw [hbr]; rfl)
    simp [isNlSp, hb]
  | case3 cs hhead hne ih =>
    intro hd
    obtain ⟨rest, hrest⟩ : ∃ rest, dropSp cs = '\n' :: rest := by
      cases hdd : dropSp cs with
      | nil =>
        rw [hdd] at hhead
        simp at hhead
      | cons a r =>
        rw [hdd] at hhead
        simp only [List.head?_cons, Option.some.injEq] at hhead
        exact ⟨r, by rw [hhead]⟩
    rw [pass3_sp_nl hrest]
    have htl : (dropSp cs).tail = rest := by rw [hrest]; rfl
    rw [htl] at ih
    have hrest_suff : rest <:+ cs := by
      have h1 : rest <:+ dropSp cs := by
        rw [hrest]
        exact List.suffix_cons _ _
      exact h1.trans (dropSp_suffix cs)
    apply noPair_cons_of (ih (noPair_suffix ((dropSp_suffix rest).trans hrest_suff) (noPair_tail hd)))
    intro b r hbr
    have hb : b ≠ ' ' := pass3_dropSp_head (by rw [hbr]; rfl)
    simp [isNlSp, hb]
  | case4 cs hnh hne ih =>
    intro hd
    rw [pass3_sp (fun rest hr => hnh (by rw [hr]; rfl))]
    have hcs : ∀ c r, cs = c :: r → c ≠ ' ' := by
      intro c r hr hc
      subst hr
      subst hc
      have := noPair_head hd
      simp [isDbl] at this
    have hts : takeSp cs = [] := takeSp_of_head hcs
    have hds : dropSp cs = cs := dropSp_of_head hcs
    rw [hts, hds]
    simp only [List.cons_append, List.nil_append]
    apply noPair_cons_of (by rw [hds] at ih; exact ih (noPair_tail hd))
    intro b r hbr
    simp [isNlSp]
  | case5 c cs h1 h2 ih =>
    intro hd
    rw [pass3_cons_ne cs h1 h2]
    apply noPair_cons_of (ih (noPair_tail hd))
    intro b r hbr
    simp [isNlSp, h1]

/-- `pass3` leaves no space directly before a newline. -/
theorem pass3_noSpNl : ∀ s : Str, noPair isDbl s = true →
    noPair isSpNl (pass3 s) = true := by
  intro s
  induction s using pass3.induct with
  | case1 =>
    intro _
    rw [pass3]
    simp [noPair]
  | case2 cs ih =>
    intro hd
    rw [pass3_nl]
    apply noPair_cons_of (ih (noPair_suffix (dropSp_suffix cs) (noPair_tail hd)))
    intro b r hbr
    simp [isSpNl]
  | case3 cs hhead hne ih =>
    intro hd
    obtain ⟨rest, hrest⟩ : ∃ rest, dropSp cs = '\n' :: rest := by
      cases hdd : dropSp cs with
      | nil =>
        rw [hdd] at hhead
        simp at hhead
      | cons a r =>
        rw [hdd] at hhead
        simp only [List.head?_cons, Option.some.injEq] at hhead
        exact ⟨r, by rw [hhead]⟩
    rw [pass3_sp_nl hrest]
    have htl : (dropSp cs).tail = rest := by rw [hrest]; rfl
    rw [htl] at ih
    have hrest_suff : rest <:+ cs := by
      have h1 : rest <:+ dropSp cs := by
        rw [hrest]
        exact List.suffix_cons _ _
      exact h1.trans (dropSp_suffix cs)
    apply noPair_cons_of (ih (noPair_suffix ((dropSp_suffix rest).trans hrest_suff) (noPair_tail hd)))
    intro b r hbr
    simp [isSpNl]
  | case4 cs hnh hne ih =>
    intro hd
    rw [pass3_sp (fun rest hr => hnh (by rw [hr]; rfl))]
    have hcs : ∀ c r, cs = c :: r → c ≠ ' ' := by
      intro c r hr hc
      subst hr
      subst hc
      have := noPair_head hd
      simp [isDbl] at this
    have hts : takeSp cs = [] := takeSp_of_head hcs
    have hds : dropSp cs = cs := dropSp_of_head hcs
    rw [hts, hds]
    simp only [List.cons_append, List.nil_append]
    apply noPair_cons_of (by rw [hds] at ih; exact ih (noPair_tail hd))
    intro b r hbr
    cases cs with
    | nil =>
      rw [pass3] at hbr
      cases hbr
    | cons x xs =>
      have hx : x ≠ ' ' := hcs x xs rfl
      have hx2 : x ≠ '\n' := by
        intro hxx
        subst hxx
        rw [hds] at hnh
        simp at hnh
      have := pass3_head_ne xs hx
      rw [hbr] at this
      simp only [List.head?_cons, Option.some.injEq] at this
      rw [← this] at hx2
      simp [isSpNl, hx2]
  | case5 c cs h1 h2 ih =>
    intro hd
    rw [pass3_cons_ne cs h1 h2]
    apply noPair_cons_of (ih (noPair_tail hd))
    intro b r hbr
    simp [isSpNl, h2]

theorem dropOneSp_head {cs : Str} {b : Char} (hd : noPair isDbl cs = true)
    (h : (dropOneSp cs).head? = some b) : b ≠ ' ' := by
  cases cs with
  | nil => simp [dropOneSp] at h
  | cons y cs2 =>
    simp only [dropOneSp] at h
    by_cases hy : y = ' '
    · rw [if_pos hy] at h
      cases cs2 with
      | nil => simp at h
      | cons z r =>
        have hz : isDbl y z = false := noPair_head hd
        rw [hy] at hz
        simp only [List.head?_cons, Option.some.injEq] at h
        rw [← h]
        intro hzz
        rw [hzz] at hz
        simp [isDbl] at hz
    · rw [if_neg hy] at h
      simp only [List.head?_cons, Option.some.injEq] at h
      rw [← h]
      exact hy

theorem pass4_dropOneSp_head {cs : Str} {b : Char} {r : Str}
    (hd : noPair isDbl cs = true) (h : pass4 (dropOneSp cs) = b :: r) : b ≠ ' ' := by
  cases hdc : dropOneSp cs with
  | nil =>
    rw [hdc, pass4] at h
    cases h
  | cons x xs =>
    have hx : x ≠ ' ' := dropOneSp_head hd (by rw [hdc]; rfl)
    have := pass4_head_ne xs hx
    rw [← hdc, h] at this
    simp only [List.head?_cons, Option.some.injEq] at this
    rw [this]
    exact hx

/-- `pass4` preserves the absence of double spaces. -/
theorem pass4_noDbl : ∀ s : Str, noPair isDbl s = true →
    noPair isDbl (pass4 s) = true := by
  intro s
  induction s using pass4.induct with
  | case1 =>
    intro _
    rw [pass4]
    simp [noPair]
  | case2 p cs hp ih =>
    intro hd
    rw [pass4_sp_cons, if_pos hp]
    have htl : noPair isDbl cs = true := noPair_tail (noPair_tail hd)
    have hih := ih (noPair_suffix (dropOneSp_suffix cs) htl)
    apply noPair_cons_of
    · apply noPair_cons_of hih
      intro b r hbr
      have hb : b ≠ ' ' := pass4_dropOneSp_head htl hbr
      simp [isDbl, hb]
    · intro b r hbr
      injection hbr with h1 _
      rw [← h1]
      simp [isDbl, isPunc_ne_sp hp]
  | case3 p cs hp ih =>
    intro hd
    rw [pass4_sp_cons, if_neg hp]
    have hpsp : p ≠ ' ' := by
      have := noPair_head hd
      intro hh
      rw [hh] at this
      simp [isDbl] at this
    apply noPair_cons_of (ih (noPair_tail hd))
    intro b r hbr
    have := pass4_head_ne cs hpsp
    rw [hbr] at this
    simp only [List.head?_cons, Option.some.injEq] at this
    rw [this]
    simp [isDbl, hpsp]
  | case4 c cs hpat hp ih =>
    intro hd
    have hc : c ≠ ' ' := isPunc_ne_sp hp
    rw [pass4_cons_ne _ hc, if_pos hp]
    have htl : noPair isDbl cs = true := noPair_tail hd
    apply noPair_cons_of
    · apply noPair_cons_of (ih (noPair_suffix (dropOneSp_suffix cs) htl))
      intro b r hbr
      have hb : b ≠ ' ' := pass4_dropOneSp_head htl hbr
      simp [isDbl, hb]
    · intro b r hbr
      injection hbr with h1 _
      rw [← h1]
      simp [isDbl, hc]
  | case5 c cs hpat hp ih =>
    intro hd
    by_cases hc : c = ' '
    · subst hc
      cases cs with
      | nil =>
        rw [pass4_sp_nil]
        simp [noPair]
      | cons p cs2 => exact absurd rfl (hpat p cs2 rfl)
    · rw [pass4_cons_ne _ hc, if_neg hp]
      apply noPair_cons_of (ih (noPair_tail hd))
      intro b r hbr
      simp [isDbl, hc]

/-- `pass4` preserves the absence of a space directly after a newline. -/
theorem pass4_noNlSp : ∀ s : Str, noPair isDbl s = true → noPair isNlSp s = true →
    noPair isNlSp (pass4 s) = true := by
  intro s
  induction s using pass4.induct with
  | case1 =>
    intro _ _
    rw [pass4]
    simp [noPair]
  | case2 p cs hp ih =>
    intro hd hn
    rw [pass4_sp_cons, if_pos hp]
    have hih := ih (noPair_suffix (dropOneSp_suffix cs) (noPair_tail (noPair_tail hd)))
      (noPair_suffix (dropOneSp_suffix cs) (noPair_tail (noPair_tail hn)))
    apply noPair_cons_of
    · apply noPair_cons_of hih
      intro b r hbr
      simp [isNlSp]
    · intro b r hbr
      injection hbr with h1 _
      rw [← h1]
      simp [isNlSp, isPunc_ne_nl hp]
  | case3 p cs hp ih =>
    intro hd hn
    rw [pass4_sp_cons, if_neg hp]
    apply noPair_cons_of (ih (noPair_tail hd) (noPair_tail hn))
    intro b r hbr
    simp [isNlSp]
  | case4 c cs hpat hp ih =>
    intro hd hn
    have hc : c ≠ ' ' := isPunc_ne_sp hp
    rw [pass4_cons_ne _ hc, if_pos hp]
    apply noPair_cons_of
    · apply noPair_cons_of (ih (noPair_suffix (dropOneSp_suffix cs) (noPair_tail hd))
        (noPair_suffix (dropOneSp_suffix cs) (noPair_tail hn)))
      intro b r hbr
      simp [isNlSp]
    · intro b r hbr
      injection hbr with h1 _
      rw [← h1]
      simp [isNlSp, isPunc_ne_nl hp]
  | case5 c cs hpat hp ih =>
    intro hd hn
    by_cases hc : c = ' '
    · subst hc
      cases cs with
      | nil =>
        rw [pass4_sp_nil]
        simp [noPair]
      | cons p cs2 => exact absurd rfl (hpat p cs2 rfl)
    · rw [pass4_cons_ne _ hc, if_neg hp]
      apply noPair_cons_of (ih (noPair_tail hd) (noPair_tail hn))
      intro b r hbr
      by_cases hcnl : c = '\n'
      · subst hcnl
        cases cs with
        | nil =>
          rw [pass4] at hbr
          cases hbr
        | cons y r2 =>
          have hy : y ≠ ' ' := by
            have := noPair_head hn
            intro hh
            rw [hh] at this
            simp [isNlSp] at this
          have := pass4_head_ne r2 hy
          rw [hbr] at this
          simp only [List.head?_cons, Option.some.injEq] at this
          rw [this]
          simp [isNlSp, hy]
      · simp [isNlSp, hcnl]

/-- `pass4` establishes: every punctuation character is followed by a space,
a dot, or the end of the string. -/
theorem pass4_puncNext : ∀ s : Str, puncNext (pass4 s) = true := by
  intro s
  induction s using pass4.induct with
  | case1 =>
    rw [pass4]
    simp [puncNext]
  | case2 p cs hp ih =>
    rw [pass4_sp_cons, if_pos hp]
    apply puncNext_cons_of
    · apply puncNext_cons_of ih
      intro b r hbr hpsp
      simp [isPunc] at hpsp
    · intro b r hbr _
      injection hbr with h1 _
      rw [← h1]
      left
      rfl
  | case3 p cs hp ih =>
    rw [pass4_sp_cons, if_neg hp]
    apply puncNext_cons_of ih
    intro b r hbr hpsp
    simp [isPunc] at hpsp
  | case4 c cs hpat hp ih =>
    rw [pass4_cons_ne _ (isPunc_ne_sp hp), if_pos hp]
    apply puncNext_cons_of
    · apply puncNext_cons_of ih
      intro b r hbr hpsp
      simp [isPunc] at hpsp
    · intro b r hbr _
      injection hbr with h1 _
      rw [← h1]
      left
      rfl
  | case5 c cs hpat hp ih =>
    by_cases hc : c = ' '
    · subst hc
      cases cs with
      | nil =>
        rw [pass4_sp_nil]
        simp [puncNext]
      | cons p cs2 => exact absurd rfl (hpat p cs2 rfl)
    · rw [pass4_cons_ne _ hc, if_neg hp]
      apply puncNext_cons_of ih
      intro b r hbr hcp
      exact absurd hcp hp

/-- `pass4` establishes the space-guard invariant: every space directly
before a newline or punctuation character is directly preceded by a
punctuation character. -/
theorem pass4_spGuard : ∀ s : Str, noPair isDbl s = true → noPair isSpNl s = true →
    spGuard (pass4 s) = true := by
  intro s
  induction s using pass4.induct with
  | case1 =>
    intro _ _
    rw [pass4]
    simp [spGuard]
  | case2 p cs hp ih =>
    intro hd hsn
    rw [pass4_sp_cons, if_pos hp]
    have hih := ih (noPair_suffix (dropOneSp_suffix cs) (noPair_tail (noPair_tail hd)))
      (noPair_suffix (dropOneSp_suffix cs) (noPair_tail (noPair_tail hsn)))
    apply spGuard_cons_of
    · apply spGuard_cons_of hih
      intro b c' r hbr hb hbad
      have : b ≠ ' ' := pass4_dropOneSp_head (noPair_tail (noPair_tail hd)) hbr
      exact absurd hb this
    · intro b c' r hbr hb hbad
      exact hp
  | case3 p cs hp ih =>
    intro hd hsn
    rw [pass4_sp_cons, if_neg hp]
    have hpsp : p ≠ ' ' := by
      have := noPair_head hd
      intro hh
      rw [hh] at this
      simp [isDbl] at this
    apply spGuard_cons_of (ih (noPair_tail hd) (noPair_tail hsn))
    intro b c' r hbr hb hbad
    have := pass4_head_ne cs hpsp
    rw [hbr] at this
    simp only [List.head?_cons, Option.some.injEq] at this
    rw [← this] at hpsp
    exact absurd hb hpsp
  | case4 c cs hpat hp ih =>
    intro hd hsn
    rw [pass4_cons_ne _ (isPunc_ne_sp hp), if_pos hp]
    apply spGuard_cons_of
    · apply spGuard_cons_of (ih (noPair_suffix (dropOneSp_suffix cs) (noPair_tail hd))
        (noPair_suffix (dropOneSp_suffix cs) (noPair_tail hsn)))
      intro b c' r hbr hb hbad
      have : b ≠ ' ' := pass4_dropOneSp_head (noPair_tail hd) hbr
      exact absurd hb this
    · intro b c' r hbr hb hbad
      exact hp
  | case5 c cs hpat hp ih =>
    intro hd hsn
    by_cases hc : c = ' '
    · subst hc
      cases cs with
      | nil =>
        rw [pass4_sp_nil]
        simp [spGuard]
      | cons p cs2 => exact absurd rfl (hpat p cs2 rfl)
    · rw [pass4_cons_ne _ hc, if_neg hp]
      apply spGuard_cons_of (ih (noPair_tail hd) (noPair_tail hsn))
      intro b c' r hbr hb hbad
      subst hb
      rcases pass4_sp_inv hbr with ⟨hcs, hX⟩ | ⟨p2, cs2, hcs, hp2, hX⟩
      · simp at hX
      · have hp2sp : p2 ≠ ' ' := by
          rw [hcs] at hd
          have := noPair_head (noPair_tail hd)
          intro hh
          rw [hh] at this
          simp [isDbl] at this
        have hhead := pass4_head_ne cs2 hp2sp
        rw [← hX] at hhead
        simp only [List.head?_cons, Option.some.injEq] at hhead
        subst hhead
        rcases hbad with hbad | hbad
        · rw [hcs] at hsn
          have := noPair_head (noPair_tail hsn)
          rw [hbad] at this
          simp [isSpNl] at this
        · exact absurd hbad (by simpa using hp2)

/-- `pass5` preserves the absence of double spaces. -/
theorem pass5_noDbl : ∀ s : Str, noPair isDbl s = true →
    noPair isDbl (pass5 s) = true := by
  intro s
  induction s using pass5.induct with
  | case1 =>
    intro _
    simp [pass5, noPair]
  | case2 c cs hcond ih =>
    intro hd
    simp only [pass5, if_pos hcond]
    exact ih (noPair_tail hd)
  | case3 c cs hcond ih =>
    intro hd
    simp only [pass5, if_neg hcond]
    apply noPair_cons_of (ih (noPair_tail hd))
    intro b r hbr
    by_cases hc : c = ' '
    · subst hc
      cases cs with
      | nil =>
        simp [pass5] at hbr
      | cons y r2 =>
        have hy : y ≠ ' ' := by
          have := noPair_head hd
          intro hh
          rw [hh] at this
          simp [isDbl] at this
        rcases pass5_head_cases y r2 with h1 | h1
        · rw [hbr] at h1
          simp only [List.head?_cons, Option.some.injEq] at h1
          rw [h1]
          simp [isDbl, hy]
        · rw [hbr] at h1
          simp only [List.head?_cons, Option.some.injEq] at h1
          rw [h1.1]
          simp [isDbl]
    · simp [isDbl, hc]

/-- `pass5` preserves the absence of a space directly after a newline. -/
theorem pass5_noNlSp : ∀ s : Str, noPair isNlSp s = true →
    noPair isNlSp (pass5 s) = true := by
  intro s
  induction s using pass5.induct with
  | case1 =>
    intro _
    simp [pass5, noPair]
  | case2 c cs hcond ih =>
    intro hn
    simp only [pass5, if_pos hcond]
    exact ih (noPair_tail hn)
  | case3 c cs hcond ih =>
    intro hn
    simp only [pass5, if_neg hcond]
    apply noPair_cons_of (ih (noPair_tail hn))
    intro b r hbr
    by_cases hc : c = '\n'
    · subst hc
      cases cs with
      | nil =>
        simp [pass5] at hbr
      | cons y r2 =>
        have hy : y ≠ ' ' := by
          have := noPair_head hn
          intro hh
          rw [hh] at this
          simp [isNlSp] at this
        rcases pass5_head_cases y r2 with h1 | h1
        · rw [hbr] at h1
          simp only [List.head?_cons, Option.some.injEq] at h1
          rw [h1]
          simp [isNlSp, hy]
        · rw [hbr] at h1
          simp only [List.head?_cons, Option.some.injEq] at h1
          rw [h1.1]
          simp [isNlSp]
    · simp [isNlSp, hc]

/-- `pass5` preserves the punctuation-successor invariant. -/
theorem pass5_puncNext : ∀ s : Str, puncNext s = true →
    puncNext (pass5 s) = true := by
  intro s
  induction s using pass5.induct with
  | case1 =>
    intro _
    simp [pass5, puncNext]
  | case2 c cs hcond ih =>
    intro hpn
    simp only [pass5, if_pos hcond]
    exact ih (puncNext_tail hpn)
  | case3 c cs hcond ih =>
    intro hpn
    simp only [pass5, if_neg hcond]
    apply puncNext_cons_of (ih (puncNext_tail hpn))
    intro b r hbr hcp
    cases cs with
    | nil =>
      simp [pass5] at hbr
    | cons y r2 =>
      rcases puncNext_head hpn hcp with hy | hy
      · rcases pass5_head_cases y r2 with h1 | h1
        · rw [hbr] at h1
          simp only [List.head?_cons, Option.some.injEq] at h1
          rw [h1, hy]
          left
          rfl
        · rw [hbr] at h1
          simp only [List.head?_cons, Option.some.injEq] at h1
          rw [h1.1]
          right
          rfl
      · rcases pass5_head_cases y r2 with h1 | h1
        · rw [hbr] at h1
          simp only [List.head?_cons, Option.some.injEq] at h1
          rw [h1, hy]
          right
          rfl
        · rw [hbr] at h1
          simp only [List.head?_cons, Option.some.injEq] at h1
          rw [h1.1]
          right
          rfl

/-- `pass5` establishes the absence of a space directly before a dot. -/
theorem pass5_noSpDot : ∀ s : Str, noPair isDbl s = true →
    noPair isSpDot (pass5 s) = true := by
  intro s
  induction s using pass5.induct with
  | case1 =>
    intro _
    simp [pass5, noPair]
  | case2 c cs hcond ih =>
    intro hd
    simp only [pass5, if_pos hcond]
    exact ih (noPair_tail hd)
  | case3 c cs hcond ih =>
    intro hd
    simp only [pass5, if_neg hcond]
    apply noPair_cons_of (ih (noPair_tail hd))
    intro b r hbr
    by_cases hc : c = ' '
    · subst hc
      cases cs with
      | nil =>
        simp [pass5] at hbr
      | cons y r2 =>
        have hy : y ≠ ' ' := by
          have := noPair_head hd
          intro hh
          rw [hh] at this
          simp [isDbl] at this
        have hynd : y ≠ '.' := by
          intro hh
          exact hcond ⟨rfl, by rw [hh]; rfl⟩
        rcases pass5_head_cases y r2 with h1 | h1
        · rw [hbr] at h1
          simp only [List.head?_cons, Option.some.injEq] at h1
          rw [h1]
          simp [isSpDot, hynd]
        · exact absurd h1.2 hy
    · simp [isSpDot, hc]

/-- `pass5` preserves the space-guard invariant. -/
theorem pass5_spGuard : ∀ s : Str, spGuard s = true → noPair isDbl s = true →
    spGuard (pass5 s) = true := by
  intro s
  induction s using pass5.induct with
  | case1 =>
    intro _ _
    simp [pass5, spGuard]
  | case2 c cs hcond ih =>
    intro hsg hd
    simp only [pass5, if_pos hcond]
    exact ih (spGuard_tail hsg) (noPair_tail hd)
  | case3 c cs hcond ih =>
    intro hsg hd
    simp only [pass5, if_neg hcond]
    apply spGuard_cons_of (ih (spGuard_tail hsg) (noPair_tail hd))
    intro b c' r hbr hb hbad
    subst hb
    obtain ⟨r2, hr2, hr2h, hX⟩ := pass5_sp_inv hbr
    cases r2 with
    | nil =>
      simp [pass5] at hX
    | cons z r3 =>
      rcases pass5_head_cases z r3 with h1 | h1
      · rw [← hX] at h1
        simp only [List.head?_cons, Option.some.injEq] at h1
        subst h1
        rw [hr2] at hsg
        exact spGuard_head hsg rfl (by
          rcases hbad with hbad | hbad
          · exact Or.inl hbad
          · exact Or.inr hbad)
      · rw [← hX] at h1
        simp only [List.head?_cons, Option.some.injEq] at h1
        rcases hbad with hbad | hbad
        · rw [h1.1] at hbad
          cases hbad
        · rw [h1.1] at hbad
          simp [isPunc] at hbad

theorem noPair_prefix {bad : Char → Char → Bool} {l' l : Str}
    (hp : l' <+: l) (h : noPair bad l = true) : noPair bad l' = true := by
  obtain ⟨u, hu⟩ := hp
  exact noPair_append_left (hu ▸ h)

theorem noPair_infx {bad : Char → Char → Bool} {l' l : Str}
    (hi : l' <:+: l) (h : noPair bad l = true) : noPair bad l' = true := by
  obtain ⟨t, h1, h2⟩ := List.infix_iff_prefix_suffix.mp hi
  exact noPair_prefix h1 (noPair_suffix h2 h)

theorem puncNext_infx {l' l : Str} (hi : l' <:+: l) (h : puncNext l = true) :
    puncNext l' = true := by
  obtain ⟨t, h1, h2⟩ := List.infix_iff_prefix_suffix.mp hi
  obtain ⟨u, hu⟩ := h1
  exact puncNext_append_left (hu ▸ puncNext_suffix h2 h)

theorem spGuard_infx {l' l : Str} (hi : l' <:+: l) (h : spGuard l = true) :
    spGuard l' = true := by
  obtain ⟨t, h1, h2⟩ := List.infix_iff_prefix_suffix.mp hi
  obtain ⟨u, hu⟩ := h1
  exact spGuard_append_left (hu ▸ spGuard_suffix h2 h)

theorem dropWhile_head_not {p : Char → Bool} : ∀ {l : Str} {c : Char},
    (l.dropWhile p).head? = some c → p c = false := by
  intro l
  induction l with
  | nil =>
    intro c h
    simp at h
  | cons a r ih =>
    intro c h
    rw [List.dropWhile_cons] at h
    by_cases ha : p a = true
    · rw [if_pos ha] at h
      exact ih h
    · rw [if_neg ha] at h
      simp only [List.head?_cons, Option.some.injEq] at h
      rw [← h]
      simpa using ha

theorem prefix_head {v u : Str} {c : Char} {r : Str} (hp : v <+: u)
    (hv : v = c :: r) : u.head? = some c := by
  obtain ⟨w, hw⟩ := hp
  rw [← hw, hv]
  rfl

theorem trimmedB_jsTrim (s : Str) : trimmedB (jsTrim s) = true := by
  simp only [trimmedB, Bool.and_eq_true]
  constructor
  · cases hj : jsTrim s with
    | nil => rfl
    | cons c r =>
      have h1 : s.dropWhile isJsWs <:+ s := List.dropWhile_suffix _
      have h2 : (s.dropWhile isJsWs).reverse.dropWhile isJsWs <:+
          (s.dropWhile isJsWs).reverse := List.dropWhile_suffix _
      have h3 : jsTrim s <+: s.dropWhile isJsWs := by
        unfold jsTrim
        have := List.reverse_prefix.mpr h2
        simpa using this
      have hu : (s.dropWhile isJsWs).head? = some c := prefix_head h3 hj
      have := dropWhile_head_not hu
      simp [headNotWs, this]
  · have hrev : (jsTrim s).reverse = (s.dropWhile isJsWs).reverse.dropWhile isJsWs := by
      unfold jsTrim
      rw [List.reverse_reverse]
    rw [hrev]
    cases hy : (s.dropWhile isJsWs).reverse.dropWhile isJsWs with
    | nil => rfl
    | cons c r =>
      have := dropWhile_head_not (p := isJsWs) (by rw [hy]; rfl)
      simp [headNotWs, this]

theorem stripZW_not_mem (s : Str) : zwsp ∉ stripZW s := by
  intro h
  have := List.of_mem_filter h
  simp at this

/-- The output of the normalizer satisfies all normal-form invariants. -/
theorem Norm_cleanTextBasic (s : Str) : Norm (cleanTextBasic s) := by
  unfold cleanTextBasic
  set t1 := stripZW s with ht1
  set t2 := collapseST t1 with ht2
  set t3 := pass3 t2 with ht3
  set t4 := pass4 t3 with ht4
  set t5 := pass5 t4 with ht5
  have hd2 : noPair isDbl t2 = true := collapseST_noDbl t1
  have hd3 : noPair isDbl t3 = true := pass3_noDbl t2 hd2
  have hd4 : noPair isDbl t4 = true := pass4_noDbl t3 hd3
  have hd5 : noPair isDbl t5 = true := pass5_noDbl t4 hd4
  have hn3 : noPair isNlSp t3 = true := pass3_noNlSp t2 hd2
  have hsn3 : noPair isSpNl t3 = true := pass3_noSpNl t2 hd2
  have hn4 : noPair isNlSp t4 = true := pass4_noNlSp t3 hd3 hn3
  have hn5 : noPair isNlSp t5 = true := pass5_noNlSp t4 hn4
  have hdot5 : noPair isSpDot t5 = true := pass5_noSpDot t4 hd4
  have hpn4 : puncNext t4 = true := pass4_puncNext t3
  have hpn5 : puncNext t5 = true := pass5_puncNext t4 hpn4
  have hsg4 : spGuard t4 = true := pass4_spGuard t3 hd3 hsn3
  have hsg5 : spGuard t5 = true := pass5_spGuard t4 hsg4 hd4
  have hz5 : zwsp ∉ t5 := by
    intro h
    have h4 : zwsp ∈ t4 := mem_pass5 h
    have h3 : zwsp ∈ t3 := by
      by_contra hne
      exact not_mem_pass4 (by decide) hne h4
    have h2 : zwsp ∈ t2 := by
      by_contra hne
      exact not_mem_pass3 (by decide) (by decide) hne h3
    have h1 : zwsp ∈ t1 := by
      by_contra hne
      exact not_mem_collapseST (by decide) hne h2
    exact stripZW_not_mem s h1
  have htb5 : '\t' ∉ t5 := by
    intro h
    have h4 : '\t' ∈ t4 := mem_pass5 h
    have h3 : '\t' ∈ t3 := by
      by_contra hne
      exact not_mem_pass4 (by decide) hne h4
    have h2 : '\t' ∈ t2 := by
      by_contra hne
      exact not_mem_pass3 (by decide) (by decide) hne h3
    exact collapseST_no_tab t1 h2
  rw [pass6_id hd5]
  have hinf := jsTrim_infx t5
  refine ⟨fun h => hz5 (mem_jsTrim h), fun h => htb5 (mem_jsTrim h),
    noPair_infx hinf hd5, noPair_infx hinf hn5, noPair_infx hinf hdot5,
    puncNext_infx hinf hpn5, spGuard_infx hinf hsg5, trimmedB_jsTrim t5⟩

/-- Claim C3: the text normalizer is idempotent — for every input string,
applying `cleanTextBasic` to its own output yields the same output — and in
particular `"Hello  world ,test"` (two spaces, space before the comma)
normalizes to `"Hello world, test"`. -/
theorem claim_C3_normalizer_idempotent :
    (∀ s : Str, cleanTextBasic (cleanTextBasic s) = cleanTextBasic s) ∧
    cleanTextBasic ("Hello  world ,test".toList) = "Hello world, test".toList := by
  constructor
  · intro s
    exact cleanTextBasic_fix (Norm_cleanTextBasic s)
  · simp [cleanTextBasic, jsTrim, pass6, pass5, pass4, pass3, collapseST, stripZW,
      dropSp, takeSp, dropOneSp, zwsp, isSpaceTab, isPunc, isJsWs]

/-! ### DOCX sanitizer (`processDOCXBasic` in `src/server.js`)

A loaded ZIP archive is a finite map from entry names to string contents
(`JSZip` keys entries by path; `zip.file(p)` is lookup, `zip.file(p, v)` is
insert-or-replace, `zip.remove(p)` is deletion).  The regex
`/<tag>.*?<\/tag>/s` with a non-global `replace` rewrites the first
occurrence: the match starts at the first occurrence of `<tag>` and extends
lazily to the first following `<\/tag>` (with `/s`, `.` also matches
newlines); if `<tag>` never occurs, or no closing tag follows its first
occurrence (and hence none follows any later occurrence either), there is no
match and the string is unchanged. -/

/-- First-occurrence search: `findSub pat s = some (pre, post)` iff
`s = pre ++ pat ++ post` with `pre` of minimal length. -/
def findSub (pat : Str) : Str → Option (Str × Str)
  | [] => if pat.isEmpty then some ([], []) else none
  | c :: cs =>
    if pat.isPrefixOf (c :: cs) then some ([], (c :: cs).drop pat.length)
    else
      match findSub pat cs with
      | some (pre, post) => some (c :: pre, post)
      | none => none

/-- Whether `pat` occurs in `s`. -/
def occursB (pat s : Str) : Bool := (findSub pat s).isSome

/-- Decidable statement that the designated occurrence of `pat` after prefix
`a` (with remainder `b`) is the first one: no occurrence of `pat` starts
strictly inside `a`. -/
def firstAtB (pat a b : Str) : Bool :=
  (List.range a.length).all (fun i => !(pat.isPrefixOf (a.drop i ++ pat ++ b)))

/-- `.replace(/<o>.*?<\/o>/s, "<o></o>")` — non-global, lazy: replace the
first occurrence of `o`, together with everything up to and including the
first following occurrence of `c`, by `o ++ c`.  No match leaves `s`
unchanged. -/
def replaceFirstTagLazy (openT closeT : Str) (s : Str) : Str :=
  match findSub openT s with
  | none => s
  | some (pre, rest) =>
    match findSub closeT rest with
    | none => s
    | some (_, post) => pre ++ openT ++ closeT ++ post

def creatorOpen : Str := "<dc:creator>".toList
def creatorClose : Str := "</dc:creator>".toList
def lastModOpen : Str := "<cp:lastModifiedBy>".toList
def lastModClose : Str := "</cp:lastModifiedBy>".toList
def titleOpen : Str := "<dc:title>".toList
def titleClose : Str := "</dc:title>".toList
def subjOpen : Str := "<dc:subject>".toList
def subjClose : Str := "</dc:subject>".toList
def keywOpen : Str := "<cp:keywords>".toList
def keywClose : Str := "</cp:keywords>".toList

/-- The five metadata-blanking replacements of `processDOCXBasic`, in source
order. -/
def cleanCoreXml (s : Str) : Str :=
  replaceFirstTagLazy keywOpen keywClose
    (replaceFirstTagLazy subjOpen subjClose
      (replaceFirstTagLazy titleOpen titleClose
        (replaceFirstTagLazy lastModOpen lastModClose
          (replaceFirstTagLazy creatorOpen creatorClose s))))

/-- A loaded ZIP archive. -/
abbrev Zip := String → Option Str

/-- `zip.file(name, content)` — insert or replace. -/
def zipSet (z : Zip) (n : String) (v : Str) : Zip :=
  fun m => if m = n then some v else z m

/-- `zip.remove(name)`. -/
def zipRemove (z : Zip) (n : String) : Zip :=
  fun m => if m = n then none else z m

def corePath : String := "docProps/core.xml"
def customPath : String := "docProps/custom.xml"
def docPath : String := "word/document.xml"

def wtOpen : Str := "<w:t".toList
def wtClose : Str := "</w:t>".toList

/-- One attempt of the regex `/\<w:t[^>]*>([\s\S]*?)<\/w:t>/` at the start of
`s`: the literal `<w:t`, a greedy run of non-`>` characters, a `>`, then a
lazy body up to the first `</w:t>`.  Returns the whole match, the captured
body and the remainder of the string. -/
def tryWT (s : Str) : Option (Str × Str × Str) :=
  if wtOpen.isPrefixOf s then
    if ((s.drop 4).drop ((s.drop 4).takeWhile (fun c => c != '>')).length).head? = some '>' then
      match findSub wtClose ((s.drop 4).drop ((s.drop 4).takeWhile (fun c => c != '>')).length).tail with
      | some (inner, r3) =>
        some (wtOpen ++ (s.drop 4).takeWhile (fun c => c != '>') ++ '>' :: inner ++ wtClose,
          inner, r3)
      | none => none
    else none
  else none

theorem findSub_some_suffix {pat : Str} : ∀ {s pre post : Str},
    findSub pat s = some (pre, post) → post.length + pat.length ≤ s.length := by
  intro s
  induction s with
  | nil =>
    intro pre post h
    simp only [findSub] at h
    by_cases hp : pat.isEmpty
    · rw [if_pos hp] at h
      injection h with h1
      injection h1 with h1 h2
      rw [← h2, List.isEmpty_iff.mp hp]
      simp
    · rw [if_neg hp] at h
      cases h
  | cons c cs ih =>
    intro pre post h
    simp only [findSub] at h
    by_cases hp : pat.isPrefixOf (c :: cs) = true
    · rw [if_pos hp] at h
      injection h with h1
      injection h1 with h1 h2
      have hle : pat.length ≤ (c :: cs).length :=
        (List.isPrefixOf_iff_prefix.mp hp).length_le
      rw [← h2, List.length_drop]
      omega
    · rw [if_neg hp] at h
      cases hfs : findSub pat cs with
      | none =>
        rw [hfs] at h
        cases h
      | some pr =>
        rw [hfs] at h
        injection h with h1
        obtain ⟨pre2, post2⟩ := pr
        injection h1 with h1 h2
        have := ih hfs
        rw [← h2]
        simp only [List.length_cons]
        omega

theorem tryWT_rest_length {s m inner r : Str} (h : tryWT s = some (m, inner, r)) :
    r.length < s.length := by
  simp only [tryWT] at h
  by_cases hp : wtOpen.isPrefixOf s = true
  · rw [if_pos hp] at h
    by_cases hh : ((s.drop 4).drop ((s.drop 4).takeWhile (fun c => c != '>')).length).head? =
        some '>'
    · rw [if_pos hh] at h
      cases hfs : findSub wtClose
          ((s.drop 4).drop ((s.drop 4).takeWhile (fun c => c != '>')).length).tail with
      | none =>
        rw [hfs] at h
        cases h
      | some pr =>
        obtain ⟨inner2, r3⟩ := pr
        rw [hfs] at h
        injection h with h1
        injection h1 with h1 h2
        injection h2 with h2 h3
        have hlen := findSub_some_suffix hfs
        have htail : (((s.drop 4).drop ((s.drop 4).takeWhile (fun c => c != '>')).length).tail).length ≤
            ((s.drop 4).drop ((s.drop 4).takeWhile (fun c => c != '>')).length).length := by
          cases ((s.drop 4).drop ((s.drop 4).takeWhile (fun c => c != '>')).length) <;> simp
        have hdd : (((s.drop 4).drop ((s.drop 4).takeWhile (fun c => c != '>')).length)).length ≤
            (s.drop 4).length := by
          rw [List.length_drop]
          omega
        have h4 : (s.drop 4).length = s.length - 4 := List.length_drop 4 s
        have h6 : 4 ≤ s.length := by
          have := (List.isPrefixOf_iff_prefix.mp hp).length_le
          simpa [wtOpen] using this
        have h7 : wtClose.length = 6 := by rfl
        rw [← h3]
        omega
    · rw [if_neg hh] at h
      cases h
  · rw [if_neg hp] at h
    cases h


/-- `m.replace(inner, cleaned)` — replace the first occurrence of `inner` in
`m` by `cleaned` (plain-string first-occurrence replacement; the cleaned
text is substituted literally). -/
def replaceFirstSub (pat repl s : Str) : Str :=
  match findSub pat s with
  | none => s
  | some (pre, post) => pre ++ repl ++ post

/-- The global scan
`xml.replace(/\<w:t[^>]*>([\s\S]*?)<\/w:t>/g, (m, inner) => m.replace(inner, cleanTextBasic inner))`:
each match is replaced by itself with the first occurrence of its captured
body replaced by the normalized body; scanning resumes after the match. -/
def replaceWT : Str → Str
  | [] => []
  | c :: cs =>
    match h : tryWT (c :: cs) with
    | some (m, inner, rest) =>
      replaceFirstSub inner (cleanTextBasic inner) m ++ replaceWT rest
    | none => c :: replaceWT cs
termination_by l => l.length
decreasing_by
  · exact tryWT_rest_length h
  · simp

/-- The text accumulation of `extractTextFromDOCX` in `src/server.js`:
`text += inner + " "` for every match of the same `w:t` regex. -/
def collectWT : Str → Str
  | [] => []
  | c :: cs =>
    match h : tryWT (c :: cs) with
    | some (_, inner, rest) => inner ++ ' ' :: collectWT rest
    | none => collectWT cs
termination_by l => l.length
decreasing_by
  · exact tryWT_rest_length h
  · simp

/-- Step 1 of `processDOCXBasic`: blank the metadata fields of the
core-properties entry, if present. -/
def docxCoreStep (z : Zip) : Zip :=
  match z corePath with
  | some coreXml => zipSet z corePath (cleanCoreXml coreXml)
  | none => z

/-- Step 1b of `processDOCXBasic`: remove the custom-properties entry, if
present. -/
def docxCustomStep (z : Zip) : Zip :=
  match z customPath with
  | some _ => zipRemove z customPath
  | none => z

/-- Step 2 of `processDOCXBasic`: normalize the text runs of the main
document entry, if present. -/
def docxDocStep (z : Zip) : Zip :=
  match z docPath with
  | some xml => zipSet z docPath (replaceWT xml)
  | none => z

/-- `processDOCXBasic` from `src/server.js`: blank the five core-properties
fields (first occurrence each), remove the custom-properties entry, and
normalize text runs in the main document entry; every other entry is left
untouched. -/
def processDOCXBasic (z : Zip) : Zip :=
  docxDocStep (docxCustomStep (docxCoreStep z))

/-- Document-processing errors surfaced by the route handlers. -/
inductive DocErr where
  | MalformedDocument
deriving DecidableEq

/-- `JSZip.loadAsync` followed by `processDOCXBasic`: a buffer that does not
parse as a ZIP archive (modelled as `none`) raises, surfaced as a processing
failure; a parsed archive is always processed successfully. -/
def processDOCXBasicE : Option Zip → Except DocErr Zip
  | none => .error .MalformedDocument
  | some z => .ok (processDOCXBasic z)

/-- `extractTextFromDOCX` from `src/server.js`: concatenate all `w:t` run
bodies separated by spaces, then normalize. -/
def extractTextFromDOCX (z : Zip) : Str :=
  match z docPath with
  | none => []
  | some xml => cleanTextBasic (collectWT xml)

theorem firstAtB_iff {pat a b : Str} : firstAtB pat a b = true ↔
    ∀ i, i < a.length → ¬ pat <+: (a.drop i ++ pat ++ b) := by
  unfold firstAtB
  rw [List.all_eq_true]
  constructor
  · intro h i hi hp
    have h2 := h i (List.mem_range.mpr hi)
    rw [← List.isPrefixOf_iff_prefix] at hp
    rw [hp] at h2
    cases h2
  · intro h i hi
    have hi2 := List.mem_range.mp hi
    by_cases hp : pat.isPrefixOf (a.drop i ++ pat ++ b) = true
    · exact absurd (List.isPrefixOf_iff_prefix.mp hp) (h i hi2)
    · have h3 : pat.isPrefixOf (a.drop i ++ pat ++ b) = false := Bool.eq_false_iff.mpr hp
      rw [h3]
      rfl

theorem firstAtB_cons {pat : Str} {x : Char} {a b : Str}
    (h : firstAtB pat (x :: a) b = true) :
    firstAtB pat a b = true ∧ ¬ pat <+: ((x :: a) ++ pat ++ b) := by
  rw [firstAtB_iff] at h
  constructor
  · rw [firstAtB_iff]
    intro i hi
    have := h (i + 1) (by simpa using Nat.succ_lt_succ hi)
    simpa using this
  · have := h 0 (by simp)
    simpa using this

theorem findSub_first {pat : Str} : ∀ (a b : Str), firstAtB pat a b = true →
    findSub pat (a ++ pat ++ b) = some (a, b) := by
  intro a
  induction a with
  | nil =>
    intro b _
    simp only [List.nil_append]
    cases hs : pat ++ b with
    | nil =>
      have hp : pat = [] := by
        cases pat with
        | nil => rfl
        | cons p ps => simp at hs
      have hb : b = [] := by
        rw [hp] at hs
        simpa using hs
      subst hp
      subst hb
      simp [findSub]
    | cons c cs =>
      simp only [findSub]
      have hpre : pat.isPrefixOf (c :: cs) = true := by
        rw [← hs]
        exact List.isPrefixOf_iff_prefix.mpr (List.prefix_append pat b)
      rw [if_pos hpre, ← hs, List.drop_left]
  | cons x a' ih =>
    intro b h
    obtain ⟨h1, h2⟩ := firstAtB_cons h
    simp only [List.cons_append]
    simp only [findSub]
    rw [if_neg (by
      intro hp
      exact h2 (by
        simp only [List.cons_append]
        exact List.isPrefixOf_iff_prefix.mp hp))]
    have := ih b h1
    rw [this]

theorem findSub_none_of_not_occurs {pat s : Str} (h : occursB pat s = false) :
    findSub pat s = none := by
  cases hf : findSub pat s with
  | none => rfl
  | some pr =>
    simp [occursB, hf] at h

theorem replaceFirstTagLazy_id {o c s : Str} (h : occursB o s = false) :
    replaceFirstTagLazy o c s = s := by
  unfold replaceFirstTagLazy
  rw [findSub_none_of_not_occurs h]

/-- The effect of one non-global lazy tag replacement on a string with a
designated first occurrence of the open tag and, after it, a designated
first occurrence of the close tag. -/
theorem replaceFirstTagLazy_spec {o cl a v b : Str}
    (h1 : firstAtB o a (v ++ cl ++ b) = true)
    (h2 : firstAtB cl v b = true) :
    replaceFirstTagLazy o cl (a ++ (o ++ (v ++ (cl ++ b)))) =
      a ++ (o ++ (cl ++ b)) := by
  have e1 : findSub o (a ++ o ++ (v ++ cl ++ b)) = some (a, v ++ cl ++ b) :=
    findSub_first a (v ++ cl ++ b) h1
  have e2 : findSub cl (v ++ cl ++ b) = some (v, b) := findSub_first v b h2
  unfold replaceFirstTagLazy
  simp only [List.append_assoc] at e1 e2 ⊢
  rw [e1]
  dsimp only
  rw [e2]

theorem zipSet_get_self (z : Zip) (n : String) (v : Str) : zipSet z n v n = some v := by
  simp [zipSet]

theorem zipSet_get_ne {m n : String} (z : Zip) (v : Str) (h : m ≠ n) :
    zipSet z n v m = z m := by
  simp [zipSet, h]

theorem zipRemove_get_self (z : Zip) (n : String) : zipRemove z n n = none := by
  simp [zipRemove]

theorem zipRemove_get_ne {m n : String} (z : Zip) (h : m ≠ n) :
    zipRemove z n m = z m := by
  simp [zipRemove, h]

theorem docxCoreStep_core (z : Zip) :
    docxCoreStep z corePath = (z corePath).map cleanCoreXml := by
  unfold docxCoreStep
  rw [show z corePath = z corePath from rfl]
  cases hz : z corePath with
  | none =>
    dsimp only
    rw [hz]
    rfl
  | some coreXml =>
    dsimp only
    rw [zipSet_get_self]
    rfl

theorem docxCoreStep_ne {m : String} (z : Zip) (h : m ≠ corePath) :
    docxCoreStep z m = z m := by
  unfold docxCoreStep
  cases hz : z corePath with
  | none => rfl
  | some coreXml =>
    dsimp only
    exact zipSet_get_ne z _ h

theorem docxCustomStep_custom (z : Zip) : docxCustomStep z customPath = none := by
  unfold docxCustomStep
  cases hz : z customPath with
  | none =>
    dsimp only
    rw [hz]
  | some v =>
    dsimp only
    exact zipRemove_get_self z customPath

theorem docxCustomStep_ne {m : String} (z : Zip) (h : m ≠ customPath) :
    docxCustomStep z m = z m := by
  unfold docxCustomStep
  cases hz : z customPath with
  | none => rfl
  | some v =>
    dsimp only
    exact zipRemove_get_ne z h

theorem docxDocStep_doc (z : Zip) :
    docxDocStep z docPath = (z docPath).map replaceWT := by
  unfold docxDocStep
  cases hz : z docPath with
  | none =>
    dsimp only
    rw [hz]
    rfl
  | some xml =>
    dsimp only
    rw [zipSet_get_self]
    rfl

theorem docxDocStep_ne {m : String} (z : Zip) (h : m ≠ docPath) :
    docxDocStep z m = z m := by
  unfold docxDocStep
  cases hz : z docPath with
  | none => rfl
  | some xml =>
    dsimp only
    exact zipSet_get_ne z _ h

/-- The sanitized archive's core-properties entry is the cleaned original. -/
theorem processDOCXBasic_core (z : Zip) :
    processDOCXBasic z corePath = (z corePath).map cleanCoreXml := by
  unfold processDOCXBasic
  rw [docxDocStep_ne _ (by decide), docxCustomStep_ne _ (by decide),
    docxCoreStep_core]

/-- The sanitized archive never has a custom-properties entry. -/
theorem processDOCXBasic_custom (z : Zip) :
    processDOCXBasic z customPath = none := by
  unfold processDOCXBasic
  rw [docxDocStep_ne _ (by decide), docxCustomStep_custom]

/-- The sanitized archive's main document entry is the text-normalized
original. -/
theorem processDOCXBasic_doc (z : Zip) :
    processDOCXBasic z docPath = (z docPath).map replaceWT := by
  unfold processDOCXBasic
  rw [docxDocStep_doc, docxCustomStep_ne _ (by decide), docxCoreStep_ne _ (by decide)]

/-- Entries other than the three special paths are untouched. -/
theorem processDOCXBasic_other {m : String} (z : Zip) (h1 : m ≠ corePath)
    (h2 : m ≠ customPath) (h3 : m ≠ docPath) :
    processDOCXBasic z m = z m := by
  unfold processDOCXBasic
  rw [docxDocStep_ne _ h3, docxCustomStep_ne _ h2, docxCoreStep_ne _ h1]

/-- The standard-shape core-properties entry: all five metadata elements in
the order the sanitizer rewrites them, with arbitrary values and arbitrary
surrounding markup. -/
def coreShape (A0 V1 A1 V2 A2 V3 A3 V4 A4 V5 A5 : Str) : Str :=
  A0 ++ (creatorOpen ++ (V1 ++ (creatorClose ++ (A1 ++ (lastModOpen ++ (V2 ++ (lastModClose ++ (A2 ++ (titleOpen ++ (V3 ++ (titleClose ++ (A3 ++ (subjOpen ++ (V4 ++ (subjClose ++ (A4 ++ (keywOpen ++ (V5 ++ (keywClose ++ (A5))))))))))))))))))))

/-- The same entry with all five element bodies blanked. -/
def coreBlanked (A0 A1 A2 A3 A4 A5 : Str) : Str :=
  A0 ++ (creatorOpen ++ (creatorClose ++ (A1 ++ (lastModOpen ++ (lastModClose ++ (A2 ++ (titleOpen ++ (titleClose ++ (A3 ++ (subjOpen ++ (subjClose ++ (A4 ++ (keywOpen ++ (keywClose ++ (A5)))))))))))))))

/-- The five sequential first-occurrence replacements blank a
standard-shape core entry, provided each rewritten occurrence is the first
occurrence of its tag at the moment it is rewritten. -/
theorem cleanCoreXml_blanks (A0 V1 A1 V2 A2 V3 A3 V4 A4 V5 A5 : Str)
    (h1a : firstAtB creatorOpen (A0) (V1 ++ creatorClose ++ (A1 ++ (lastModOpen ++ (V2 ++ (lastModClose ++ (A2 ++ (titleOpen ++ (V3 ++ (titleClose ++ (A3 ++ (subjOpen ++ (V4 ++ (subjClose ++ (A4 ++ (keywOpen ++ (V5 ++ (keywClose ++ (A5)))))))))))))))))) = true)
    (h1b : firstAtB creatorClose V1 (A1 ++ (lastModOpen ++ (V2 ++ (lastModClose ++ (A2 ++ (titleOpen ++ (V3 ++ (titleClose ++ (A3 ++ (subjOpen ++ (V4 ++ (subjClose ++ (A4 ++ (keywOpen ++ (V5 ++ (keywClose ++ (A5))))))))))))))))) = true)
    (h2a : firstAtB lastModOpen (A0 ++ (creatorOpen ++ (creatorClose ++ (A1)))) (V2 ++ lastModClose ++ (A2 ++ (titleOpen ++ (V3 ++ (titleClose ++ (A3 ++ (subjOpen ++ (V4 ++ (subjClose ++ (A4 ++ (keywOpen ++ (V5 ++ (keywClose ++ (A5)))))))))))))) = true)
    (h2b : firstAtB lastModClose V2 (A2 ++ (titleOpen ++ (V3 ++ (titleClose ++ (A3 ++ (subjOpen ++ (V4 ++ (subjClose ++ (A4 ++ (keywOpen ++ (V5 ++ (keywClose ++ (A5))))))))))))) = true)
    (h3a : firstAtB titleOpen (A0 ++ (creatorOpen ++ (creatorClose ++ (A1 ++ (lastModOpen ++ (lastModClose ++ (A2))))))) (V3 ++ titleClose ++ (A3 ++ (subjOpen ++ (V4 ++ (subjClose ++ (A4 ++ (keywOpen ++ (V5 ++ (keywClose ++ (A5)))))))))) = true)
    (h3b : firstAtB titleClose V3 (A3 ++ (subjOpen ++ (V4 ++ (subjClose ++ (A4 ++ (keywOpen ++ (V5 ++ (keywClose ++ (A5))))))))) = true)
    (h4a : firstAtB subjOpen (A0 ++ (creatorOpen ++ (creatorClose ++ (A1 ++ (lastModOpen ++ (lastModClose ++ (A2 ++ (titleOpen ++ (titleClose ++ (A3)))))))))) (V4 ++ subjClose ++ (A4 ++ (keywOpen ++ (V5 ++ (keywClose ++ (A5)))))) = true)
    (h4b : firstAtB subjClose V4 (A4 ++ (keywOpen ++ (V5 ++ (keywClose ++ (A5))))) = true)
    (h5a : firstAtB keywOpen (A0 ++ (creatorOpen ++ (creatorClose ++ (A1 ++ (lastModOpen ++ (lastModClose ++ (A2 ++ (titleOpen ++ (titleClose ++ (A3 ++ (subjOpen ++ (subjClose ++ (A4))))))))))))) (V5 ++ keywClose ++ (A5)) = true)
    (h5b : firstAtB keywClose V5 (A5) = true) :
    cleanCoreXml (coreShape A0 V1 A1 V2 A2 V3 A3 V4 A4 V5 A5) =
      coreBlanked A0 A1 A2 A3 A4 A5 := by
  unfold cleanCoreXml coreShape coreBlanked
  rw [replaceFirstTagLazy_spec h1a h1b]
  rw [show (A0) ++ (creatorOpen ++ (creatorClose ++ (A1 ++ (lastModOpen ++ (V2 ++ (lastModClose ++ (A2 ++ (titleOpen ++ (V3 ++ (titleClose ++ (A3 ++ (subjOpen ++ (V4 ++ (subjClose ++ (A4 ++ (keywOpen ++ (V5 ++ (keywClose ++ (A5))))))))))))))))))) =
      (A0 ++ (creatorOpen ++ (creatorClose ++ (A1)))) ++ (lastModOpen ++ (V2 ++ (lastModClose ++ (A2 ++ (titleOpen ++ (V3 ++ (titleClose ++ (A3 ++ (subjOpen ++ (V4 ++ (subjClose ++ (A4 ++ (keywOpen ++ (V5 ++ (keywClose ++ (A5)))))))))))))))) from by simp only [List.append_assoc]]
  rw [replaceFirstTagLazy_spec h2a h2b]
  rw [show (A0 ++ (creatorOpen ++ (creatorClose ++ (A1)))) ++ (lastModOpen ++ (lastModClose ++ (A2 ++ (titleOpen ++ (V3 ++ (titleClose ++ (A3 ++ (subjOpen ++ (V4 ++ (subjClose ++ (A4 ++ (keywOpen ++ (V5 ++ (keywClose ++ (A5))))))))))))))) =
      (A0 ++ (creatorOpen ++ (creatorClose ++ (A1 ++ (lastModOpen ++ (lastModClose ++ (A2))))))) ++ (titleOpen ++ (V3 ++ (titleClose ++ (A3 ++ (subjOpen ++ (V4 ++ (subjClose ++ (A4 ++ (keywOpen ++ (V5 ++ (keywClose ++ (A5)))))))))))) from by simp only [List.append_assoc]]
  rw [replaceFirstTagLazy_spec h3a h3b]
  rw [show (A0 ++ (creatorOpen ++ (creatorClose ++ (A1 ++ (lastModOpen ++ (lastModClose ++ (A2))))))) ++ (titleOpen ++ (titleClose ++ (A3 ++ (subjOpen ++ (V4 ++ (subjClose ++ (A4 ++ (keywOpen ++ (V5 ++ (keywClose ++ (A5))))))))))) =
      (A0 ++ (creatorOpen ++ (creatorClose ++ (A1 ++ (lastModOpen ++ (lastModClose ++ (A2 ++ (titleOpen ++ (titleClose ++ (A3)))))))))) ++ (subjOpen ++ (V4 ++ (subjClose ++ (A4 ++ (keywOpen ++ (V5 ++ (keywClose ++ (A5)))))))) from by simp only [List.append_assoc]]
  rw [replaceFirstTagLazy_spec h4a h4b]
  rw [show (A0 ++ (creatorOpen ++ (creatorClose ++ (A1 ++ (lastModOpen ++ (lastModClose ++ (A2 ++ (titleOpen ++ (titleClose ++ (A3)))))))))) ++ (subjOpen ++ (subjClose ++ (A4 ++ (keywOpen ++ (V5 ++ (keywClose ++ (A5))))))) =
      (A0 ++ (creatorOpen ++ (creatorClose ++ (A1 ++ (lastModOpen ++ (lastModClose ++ (A2 ++ (titleOpen ++ (titleClose ++ (A3 ++ (subjOpen ++ (subjClose ++ (A4))))))))))))) ++ (keywOpen ++ (V5 ++ (keywClose ++ (A5)))) from by simp only [List.append_assoc]]
  rw [replaceFirstTagLazy_spec h5a h5b]
  simp only [List.append_assoc]
/-- With two creator elements (and none of the other four open tags
occurring anywhere), only the first creator occurrence is blanked; the
second occurrence and all other content are unchanged. -/
theorem cleanCoreXml_two_creators (A0 V1 A1 V2 A2 : Str)
    (h1 : firstAtB creatorOpen A0 (V1 ++ creatorClose ++ (A1 ++ (creatorOpen ++ (V2 ++ (creatorClose ++ A2))))) = true)
    (h2 : firstAtB creatorClose V1 (A1 ++ (creatorOpen ++ (V2 ++ (creatorClose ++ A2)))) = true)
    (h3 : occursB lastModOpen (A0 ++ (creatorOpen ++ (creatorClose ++ (A1 ++ (creatorOpen ++ (V2 ++ (creatorClose ++ A2))))))) = false)
    (h4 : occursB titleOpen (A0 ++ (creatorOpen ++ (creatorClose ++ (A1 ++ (creatorOpen ++ (V2 ++ (creatorClose ++ A2))))))) = false)
    (h5 : occursB subjOpen (A0 ++ (creatorOpen ++ (creatorClose ++ (A1 ++ (creatorOpen ++ (V2 ++ (creatorClose ++ A2))))))) = false)
    (h6 : occursB keywOpen (A0 ++ (creatorOpen ++ (creatorClose ++ (A1 ++ (creatorOpen ++ (V2 ++ (creatorClose ++ A2))))))) = false) :
    cleanCoreXml (A0 ++ (creatorOpen ++ (V1 ++ (creatorClose ++ (A1 ++ (creatorOpen ++ (V2 ++ (creatorClose ++ A2)))))))) = A0 ++ (creatorOpen ++ (creatorClose ++ (A1 ++ (creatorOpen ++ (V2 ++ (creatorClose ++ A2)))))) := by
  unfold cleanCoreXml
  rw [replaceFirstTagLazy_spec h1 h2]
  rw [replaceFirstTagLazy_id h3, replaceFirstTagLazy_id h4,
    replaceFirstTagLazy_id h5, replaceFirstTagLazy_id h6]

/-- A concrete core-properties entry with two creator elements. -/
def dupCore : Str :=
  "<cp:coreProperties><dc:creator>Jane</dc:creator><dc:creator>John</dc:creator></cp:coreProperties>".toList

/-- The same entry after sanitization: first creator blanked, second kept. -/
def dupCoreCleaned : Str :=
  "<cp:coreProperties><dc:creator></dc:creator><dc:creator>John</dc:creator></cp:coreProperties>".toList

/-- A concrete archive containing only the duplicate-creator entry. -/
def dupZip : Zip := fun n => if n = corePath then some dupCore else none

/-! ### The part_000 DOCX sanitizer (`cleanDOCX`)

The claim also cites `cleanDOCX` in src/unnamed/part_000, which is a
different sanitizer: it DELETES `docProps/core.xml`, `docProps/app.xml`
and `docProps/custom.xml` outright (and the `customXml` folder), then
lightly normalizes the document entry with `/\s+/g -> " "` and removal of
a space before `, . ! ?`. -/

def appPath : String := "docProps/app.xml"

/-- `zip.remove("customXml")`: the folder entry and everything below it. -/
def inCustomFolder (n : String) : Bool :=
  n = "customXml" || "customXml/".toList.isPrefixOf n.toList

/-- `xml.replace(/\s+/g, " ")`: every maximal whitespace run becomes one
space. -/
def collapseWs : Str → Str
  | [] => []
  | [c] => if isJsWs c then [' '] else [c]
  | c1 :: c2 :: cs =>
    if isJsWs c1 then
      if isJsWs c2 then collapseWs (c2 :: cs)
      else ' ' :: c2 :: collapseWs cs
    else c1 :: collapseWs (c2 :: cs)

/-- `xml.replace(/ p/g, "p")` for a punctuation character `p`: delete the
space of every (leftmost, non-overlapping) occurrence of `" p"`. -/
def delSpBefore (p : Char) : Str → Str
  | [] => []
  | [c] => [c]
  | c1 :: c2 :: cs =>
    if c1 = ' ' ∧ c2 = p then p :: delSpBefore p cs
    else c1 :: delSpBefore p (c2 :: cs)

/-- The light text normalization `cleanDOCX` applies to the document
entry, in source order. -/
def lightClean (s : Str) : Str :=
  delSpBefore '?' (delSpBefore '!' (delSpBefore '.' (delSpBefore ',' (collapseWs s))))

/-- The document-entry step of `cleanDOCX`. -/
def docxLightStep (z : Zip) : Zip :=
  match z docPath with
  | some xml => zipSet z docPath (lightClean xml)
  | none => z

/-- `cleanDOCX` from src/unnamed/part_000: remove the three property
entries and the customXml folder entirely, then lightly normalize the
document entry. -/
def cleanDOCX (z : Zip) : Zip := fun n =>
  if n = corePath ∨ n = appPath ∨ n = customPath ∨ inCustomFolder n = true then none
  else docxLightStep z n

theorem cleanDOCX_core (z : Zip) : cleanDOCX z corePath = none := by
  unfold cleanDOCX
  rw [if_pos (Or.inl rfl)]

theorem cleanDOCX_app (z : Zip) : cleanDOCX z appPath = none := by
  unfold cleanDOCX
  rw [if_pos (Or.inr (Or.inl rfl))]

theorem cleanDOCX_custom (z : Zip) : cleanDOCX z customPath = none := by
  unfold cleanDOCX
  rw [if_pos (Or.inr (Or.inr (Or.inl rfl)))]

theorem cleanDOCX_doc (z : Zip) :
    cleanDOCX z docPath = (z docPath).map lightClean := by
  unfold cleanDOCX
  rw [if_neg (by decide)]
  unfold docxLightStep
  cases hz : z docPath with
  | none =>
    dsimp only
    rw [hz]
    rfl
  | some xml =>
    dsimp only
    rw [zipSet_get_self]
    rfl

/-- Claim C1 counterexample: the claim fails for both cited sanitizers.
For `processDOCXBasic` (src/server.js), a core-properties entry with two
creator elements keeps `<dc:creator>John</dc:creator>` with non-empty text,
so not every creator element is blanked. For `cleanDOCX`
(src/unnamed/part_000), the core-properties entry is DELETED outright, so
no blanked creator element is present in the output at all — the markup is
not retained. -/
theorem claim_C1_counterexample :
    dupZip corePath = some dupCore ∧
    processDOCXBasic dupZip corePath = some dupCoreCleaned ∧
    "<dc:creator>John</dc:creator>".toList <:+: dupCoreCleaned ∧
    cleanDOCX dupZip corePath = none := by
  refine ⟨rfl, ?_, by decide, cleanDOCX_core dupZip⟩
  rw [processDOCXBasic_core]
  decide

/-- Claim C1 (amended): the two cited sanitizers treat the metadata
differently, and neither satisfies the claim as written. For every archive
whose core-properties entry has the standard shape in which each of the
five metadata elements occurs as the first occurrence of its tag,
`processDOCXBasic` (src/server.js) blanks all five elements in place
(markup retained) and removes the custom-properties entry; `cleanDOCX`
(src/unnamed/part_000) instead DELETES the core-properties, app-properties
and custom-properties entries outright — no blanked elements are retained —
while keeping the (lightly normalized) document entry. -/
theorem claim_C1_docx_blanks_metadata (z : Zip)
    (A0 V1 A1 V2 A2 V3 A3 V4 A4 V5 A5 : Str)
    (hcore : z corePath = some (coreShape A0 V1 A1 V2 A2 V3 A3 V4 A4 V5 A5))
    (h1a : firstAtB creatorOpen (A0) (V1 ++ creatorClose ++ (A1 ++ (lastModOpen ++ (V2 ++ (lastModClose ++ (A2 ++ (titleOpen ++ (V3 ++ (titleClose ++ (A3 ++ (subjOpen ++ (V4 ++ (subjClose ++ (A4 ++ (keywOpen ++ (V5 ++ (keywClose ++ (A5)))))))))))))))))) = true)
    (h1b : firstAtB creatorClose V1 (A1 ++ (lastModOpen ++ (V2 ++ (lastModClose ++ (A2 ++ (titleOpen ++ (V3 ++ (titleClose ++ (A3 ++ (subjOpen ++ (V4 ++ (subjClose ++ (A4 ++ (keywOpen ++ (V5 ++ (keywClose ++ (A5))))))))))))))))) = true)
    (h2a : firstAtB lastModOpen (A0 ++ (creatorOpen ++ (creatorClose ++ (A1)))) (V2 ++ lastModClose ++ (A2 ++ (titleOpen ++ (V3 ++ (titleClose ++ (A3 ++ (subjOpen ++ (V4 ++ (subjClose ++ (A4 ++ (keywOpen ++ (V5 ++ (keywClose ++ (A5)))))))))))))) = true)
    (h2b : firstAtB lastModClose V2 (A2 ++ (titleOpen ++ (V3 ++ (titleClose ++ (A3 ++ (subjOpen ++ (V4 ++ (subjClose ++ (A4 ++ (keywOpen ++ (V5 ++ (keywClose ++ (A5))))))))))))) = true)
    (h3a : firstAtB titleOpen (A0 ++ (creatorOpen ++ (creatorClose ++ (A1 ++ (lastModOpen ++ (lastModClose ++ (A2))))))) (V3 ++ titleClose ++ (A3 ++ (subjOpen ++ (V4 ++ (subjClose ++ (A4 ++ (keywOpen ++ (V5 ++ (keywClose ++ (A5)))))))))) = true)
    (h3b : firstAtB titleClose V3 (A3 ++ (subjOpen ++ (V4 ++ (subjClose ++ (A4 ++ (keywOpen ++ (V5 ++ (keywClose ++ (A5))))))))) = true)
    (h4a : firstAtB subjOpen (A0 ++ (creatorOpen ++ (creatorClose ++ (A1 ++ (lastModOpen ++ (lastModClose ++ (A2 ++ (titleOpen ++ (titleClose ++ (A3)))))))))) (V4 ++ subjClose ++ (A4 ++ (keywOpen ++ (V5 ++ (keywClose ++ (A5)))))) = true)
    (h4b : firstAtB subjClose V4 (A4 ++ (keywOpen ++ (V5 ++ (keywClose ++ (A5))))) = true)
    (h5a : firstAtB keywOpen (A0 ++ (creatorOpen ++ (creatorClose ++ (A1 ++ (lastModOpen ++ (lastModClose ++ (A2 ++ (titleOpen ++ (titleClose ++ (A3 ++ (subjOpen ++ (subjClose ++ (A4))))))))))))) (V5 ++ keywClose ++ (A5)) = true)
    (h5b : firstAtB keywClose V5 (A5) = true) :
    processDOCXBasic z corePath = some (coreBlanked A0 A1 A2 A3 A4 A5) ∧
    processDOCXBasic z customPath = none ∧
    cleanDOCX z corePath = none ∧
    cleanDOCX z appPath = none ∧
    cleanDOCX z customPath = none ∧
    cleanDOCX z docPath = (z docPath).map lightClean := by
  refine ⟨?_, processDOCXBasic_custom z, cleanDOCX_core z, cleanDOCX_app z,
    cleanDOCX_custom z, cleanDOCX_doc z⟩
  rw [processDOCXBasic_core, hcore]
  rw [Option.map_some']
  rw [cleanCoreXml_blanks A0 V1 A1 V2 A2 V3 A3 V4 A4 V5 A5 h1a h1b h2a h2b h3a h3b h4a h4b h5a h5b]

def a0Jane : Str := "<cp:coreProperties xmlns:dc=\"dc\">".toList
def v1Jane : Str := "Jane".toList
def v2Jane : Str := "Someone Else".toList
def v3Jane : Str := "My Title".toList
def v4Jane : Str := "My Subject".toList
def v5Jane : Str := "kw1, kw2".toList
def a5Jane : Str := "</cp:coreProperties>".toList

/-- Scenario A's archive: a standard core entry whose creator is Jane, plus
a custom-properties entry that must be removed. -/
def zJane : Zip := fun n =>
  if n = corePath then some (coreShape a0Jane v1Jane [] v2Jane [] v3Jane [] v4Jane [] v5Jane a5Jane)
  else if n = customPath then some ("<Properties><property>secret</property></Properties>").toList
  else none

theorem claim_C1_docx_blanks_metadata_witness :
    processDOCXBasic zJane corePath =
      some (coreBlanked a0Jane [] [] [] [] a5Jane) ∧
    processDOCXBasic zJane customPath = none ∧
    cleanDOCX zJane corePath = none ∧
    cleanDOCX zJane appPath = none ∧
    cleanDOCX zJane customPath = none ∧
    cleanDOCX zJane docPath = (zJane docPath).map lightClean :=
  claim_C1_docx_blanks_metadata zJane a0Jane v1Jane [] v2Jane [] v3Jane [] v4Jane [] v5Jane a5Jane
    (by rfl) (by decide) (by decide) (by decide) (by decide) (by decide)
    (by decide) (by decide) (by decide) (by decide) (by decide)

/-- Claim C10: on a core-properties entry containing two creator elements
(the other four tags absent), the sanitizer blanks only the first creator
occurrence; the second occurrence and every other byte of the entry are
unchanged, because each replacement regex is applied without the global
flag. -/
theorem claim_C10_first_occurrence_only (z : Zip) (A0 V1 A1 V2 A2 : Str)
    (hcore : z corePath = some (A0 ++ (creatorOpen ++ (V1 ++ (creatorClose ++ (A1 ++ (creatorOpen ++ (V2 ++ (creatorClose ++ A2)))))))))
    (h1 : firstAtB creatorOpen A0 (V1 ++ creatorClose ++ (A1 ++ (creatorOpen ++ (V2 ++ (creatorClose ++ A2))))) = true)
    (h2 : firstAtB creatorClose V1 (A1 ++ (creatorOpen ++ (V2 ++ (creatorClose ++ A2)))) = true)
    (h3 : occursB lastModOpen (A0 ++ (creatorOpen ++ (creatorClose ++ (A1 ++ (creatorOpen ++ (V2 ++ (creatorClose ++ A2))))))) = false)
    (h4 : occursB titleOpen (A0 ++ (creatorOpen ++ (creatorClose ++ (A1 ++ (creatorOpen ++ (V2 ++ (creatorClose ++ A2))))))) = false)
    (h5 : occursB subjOpen (A0 ++ (creatorOpen ++ (creatorClose ++ (A1 ++ (creatorOpen ++ (V2 ++ (creatorClose ++ A2))))))) = false)
    (h6 : occursB keywOpen (A0 ++ (creatorOpen ++ (creatorClose ++ (A1 ++ (creatorOpen ++ (V2 ++ (creatorClose ++ A2))))))) = false) :
    processDOCXBasic z corePath = some (A0 ++ (creatorOpen ++ (creatorClose ++ (A1 ++ (creatorOpen ++ (V2 ++ (creatorClose ++ A2))))))) := by
  rw [processDOCXBasic_core, hcore, Option.map_some']
  rw [cleanCoreXml_two_creators A0 V1 A1 V2 A2 h1 h2 h3 h4 h5 h6]

theorem claim_C10_first_occurrence_only_witness :
    processDOCXBasic dupZip corePath = some dupCoreCleaned := by
  have h := claim_C10_first_occurrence_only dupZip
    ("<cp:coreProperties>".toList) ("Jane".toList) ([]) ("John".toList)
    ("</cp:coreProperties>".toList)
    (by decide) (by decide) (by decide) (by decide) (by decide) (by decide)
    (by decide)
  rw [h]
  decide

/-- Whether an `Except` value is a success. -/
def exceptIsOk {ε α : Type} : Except ε α → Bool
  | .ok _ => true
  | .error _ => false

/-- A concrete core-properties entry with a single creator element. -/
def janeCoreSimple : Str :=
  "<cp:coreProperties><dc:creator>Jane</dc:creator></cp:coreProperties>".toList

/-- A concrete archive with a core entry but no word/document.xml entry. -/
def zNoDoc : Zip := fun n => if n = corePath then some janeCoreSimple else none

/-- Claim C9 counterexample: an archive lacking `word/document.xml` is
processed successfully (no MalformedDocument error); the sanitizer still
produces an output archive with the core entry blanked. -/
theorem claim_C9_counterexample :
    zNoDoc docPath = none ∧
    exceptIsOk (processDOCXBasicE (some zNoDoc)) = true ∧
    processDOCXBasic zNoDoc corePath =
      some ("<cp:coreProperties><dc:creator></dc:creator></cp:coreProperties>".toList) := by
  refine ⟨by decide, rfl, ?_⟩
  rw [processDOCXBasic_core]
  decide

/-- Claim C9 (amended): the DOCX sanitizer fails with `MalformedDocument`
exactly when the container cannot be parsed as a ZIP archive; an archive
that merely lacks the `word/document.xml` entry is processed successfully,
with the text-normalization step skipped and the metadata steps still
applied. -/
theorem claim_C9_missing_document_entry :
    processDOCXBasicE none = Except.error DocErr.MalformedDocument ∧
    ∀ z : Zip, z docPath = none →
      exceptIsOk (processDOCXBasicE (some z)) = true ∧
      processDOCXBasic z docPath = none ∧
      processDOCXBasic z corePath = (z corePath).map cleanCoreXml ∧
      processDOCXBasic z customPath = none := by
  refine ⟨rfl, ?_⟩
  intro z hz
  refine ⟨rfl, ?_, processDOCXBasic_core z, processDOCXBasic_custom z⟩
  rw [processDOCXBasic_doc, hz]
  rfl

theorem claim_C9_missing_document_entry_witness :
    exceptIsOk (processDOCXBasicE (some zNoDoc)) = true ∧
    processDOCXBasic zNoDoc docPath = none :=
  ⟨(claim_C9_missing_document_entry.2 zNoDoc (by decide)).1,
   (claim_C9_missing_document_entry.2 zNoDoc (by decide)).2.1⟩

/-! ### PDF sanitizers (C2)

`processPDFBasic` in src/server.js loads the PDF with `updateMetadata: true`
and edits it IN PLACE: it blanks title/author/subject/producer/creator, sets
keywords to [], and sets both dates to `new Date(0)` (the Unix epoch).
`cleanPDF` in src/unnamed/part_000 instead creates a FRESH container, copies
every page by index via `copyPages(src, src.getPageIndices())`, blanks the
same metadata, but sets both dates to `new Date()` (the CURRENT time, passed
here as the `now` parameter). A `PDFDoc` models the observable container
state: the page list, the mutable metadata fields, and `extra`, the residual
container state (object streams, attachments, unreferenced objects) that an
in-place edit preserves and a fresh container does not. -/

structure PDFDoc where
  pages : List Nat
  title : Str
  author : Str
  subject : Str
  producer : Str
  creator : Str
  keywords : List Str
  creationDate : Int
  modificationDate : Int
  extra : Str
deriving DecidableEq

/-- `PDFDocument.create()`: a fresh container with no pages and default
(empty) state. -/
def emptyPDF : PDFDoc :=
  { pages := [], title := [], author := [], subject := [], producer := [],
    creator := [], keywords := [], creationDate := 0, modificationDate := 0,
    extra := [] }

/-- `src.getPageIndices()`: the indices 0..n-1 of the document's pages. -/
def getPageIndices (d : PDFDoc) : List Nat := List.range d.pages.length

/-- `copyPages(src, idxs)`: the pages of `src` selected by the given
indices, in order. -/
def copyPages (d : PDFDoc) (idxs : List Nat) : List Nat :=
  idxs.filterMap (fun i => d.pages.get? i)

/-- src/server.js `processPDFBasic`: in-place metadata blanking with both
dates set to the epoch (`new Date(0)`); pages and residual container state
are untouched. -/
def processPDFBasic (d : PDFDoc) : PDFDoc :=
  { d with title := [], author := [], subject := [], keywords := [],
           producer := [], creator := [],
           creationDate := 0, modificationDate := 0 }

/-- src/unnamed/part_000 `cleanPDF`: copy every page by index into a fresh
container, blank the metadata, and set both dates to the current time
(`new Date()`, modelled by `now`). -/
def cleanPDF (d : PDFDoc) (now : Int) : PDFDoc :=
  let dst := { emptyPDF with pages := copyPages d (getPageIndices d) }
  { dst with title := [], author := [], subject := [], keywords := [],
             producer := [], creator := [],
             creationDate := now, modificationDate := now }

theorem filterMap_get_range {α : Type} (l : List α) :
    (List.range l.length).filterMap (fun i => l.get? i) = l := by
  induction l with
  | nil => rfl
  | cons a l ih =>
    rw [List.length_cons, List.range_succ_eq_map]
    simp only [List.filterMap_cons, List.get?_cons_zero, List.filterMap_map]
    simp only [Function.comp_def, List.get?_cons_succ]
    rw [ih]

/-- Copying by all page indices reproduces the page list exactly. -/
theorem copyPages_getPageIndices (d : PDFDoc) :
    copyPages d (getPageIndices d) = d.pages :=
  filterMap_get_range d.pages

/-- A concrete PDF with populated metadata and residual container state. -/
def exPdf : PDFDoc :=
  { pages := [10, 20], title := "Secret title".toList,
    author := "Jane".toList, subject := "s".toList, producer := "p".toList,
    creator := "c".toList, keywords := ["k".toList],
    creationDate := 100, modificationDate := 200,
    extra := "objstream".toList }

/-- Claim C2 counterexample: neither implementation satisfies the claim.
The fresh-container variant (`cleanPDF`, part_000) stamps the current time,
not a fixed epoch: its output date varies with the wall clock and is not 0.
The variant that does use the epoch (`processPDFBasic`, server.js) edits in
place rather than copying pages into a fresh container: residual container
state survives, unlike in a fresh container. -/
theorem claim_C2_counterexample :
    (cleanPDF exPdf 555).creationDate ≠ (cleanPDF exPdf 777).creationDate ∧
    (cleanPDF exPdf 555).creationDate ≠ 0 ∧
    (processPDFBasic exPdf).extra = exPdf.extra ∧
    (processPDFBasic exPdf).extra ≠ emptyPDF.extra := by
  refine ⟨by decide, by decide, rfl, by decide⟩

/-- Claim C2 (amended): both PDF sanitizers preserve every page in order
and blank title, author, subject, producer, creator and keywords; but
`processPDFBasic` (server.js) edits the container in place — residual
state preserved — and sets both dates to the fixed epoch 0, while
`cleanPDF` (part_000) copies the pages into a fresh container — residual
state dropped — and sets both dates to the current time `now`. -/
theorem claim_C2_pdf_sanitizers (d : PDFDoc) (now : Int) :
    ((processPDFBasic d).pages = d.pages ∧
     (processPDFBasic d).title = [] ∧
     (processPDFBasic d).author = [] ∧
     (processPDFBasic d).subject = [] ∧
     (processPDFBasic d).producer = [] ∧
     (processPDFBasic d).creator = [] ∧
     (processPDFBasic d).keywords = [] ∧
     (processPDFBasic d).creationDate = 0 ∧
     (processPDFBasic d).modificationDate = 0 ∧
     (processPDFBasic d).extra = d.extra) ∧
    ((cleanPDF d now).pages = d.pages ∧
     (cleanPDF d now).title = [] ∧
     (cleanPDF d now).author = [] ∧
     (cleanPDF d now).subject = [] ∧
     (cleanPDF d now).producer = [] ∧
     (cleanPDF d now).creator = [] ∧
     (cleanPDF d now).keywords = [] ∧
     (cleanPDF d now).creationDate = now ∧
     (cleanPDF d now).modificationDate = now ∧
     (cleanPDF d now).extra = []) := by
  refine ⟨⟨rfl, rfl, rfl, rfl, rfl, rfl, rfl, rfl, rfl, rfl⟩,
          ⟨?_, rfl, rfl, rfl, rfl, rfl, rfl, rfl, rfl, rfl⟩⟩
  exact copyPages_getPageIndices d

/-! ### LanguageTool client (C4, C5, C8)

`runLanguageTool` in src/server.js slices the text into consecutive chunks
of at most 20000 characters (`fullText.slice(i, i + limit)` for
`i = 0, limit, 2*limit, ...`), skips whitespace-only chunks
(`if (!chunk.trim()) continue`), posts each remaining chunk, and
concatenates the `matches` arrays of the responses; a failed request throws,
aborting the whole operation. `languageToolCheck` in src/unnamed/part_000
does not chunk at all: blank text short-circuits to no matches and anything
else is posted as one single request. The network is an oracle parameter
`net` from request text to result. -/

/-- A LanguageTool match as consumed by the report builders: the optional
rule id (`m.rule?.id`), the message, the replacement values
(`m.replacements[i].value`), and the optional context text
(`m.context?.text`). -/
structure LTMatch where
  ruleId : Option Str
  message : Str
  replacements : List Str
  contextText : Option Str
deriving DecidableEq

/-- `!s.trim()`: the string is empty or whitespace-only. -/
def isBlankL (s : Str) : Bool := (jsTrim s).isEmpty

/-- `const limit = 20000`. -/
def ltLimit : Nat := 20000

/-- Fuel-driven form of the slicing loop; one unit of fuel per iteration,
and each iteration consumes at least one character, so `s.length` fuel is
always enough. -/
def ltChunksN : Nat → Str → List Str
  | _, [] => []
  | 0, _ :: _ => []
  | fuel + 1, c :: cs => (c :: cs).take ltLimit :: ltChunksN fuel ((c :: cs).drop ltLimit)

/-- The slicing loop of `runLanguageTool`:
`for (let i = 0; i < fullText.length; i += limit)
 chunks.push(fullText.slice(i, i + limit))`. -/
def ltChunks (s : Str) : List Str := ltChunksN s.length s

/-- The chunks actually posted: whitespace-only chunks are skipped
(`if (!chunk.trim()) continue`). -/
def ltRequests (s : Str) : List Str :=
  (ltChunks s).filter (fun c => !isBlankL c)

/-- The chunk loop of `runLanguageTool`: post each non-blank chunk in
order, concatenating the matches of the responses; a failed request aborts
the whole operation with no partial result. -/
def runChunks (net : Str → Except Unit (List LTMatch)) :
    List Str → Except Unit (List LTMatch)
  | [] => .ok []
  | c :: cs =>
    if isBlankL c then runChunks net cs
    else
      match net c with
      | .error e => .error e
      | .ok ms =>
        match runChunks net cs with
        | .error e => .error e
        | .ok rest => .ok (ms ++ rest)

/-- `runLanguageTool` from src/server.js. -/
def runLanguageTool (net : Str → Except Unit (List LTMatch)) (s : Str) :
    Except Unit (List LTMatch) :=
  runChunks net (ltChunks s)

/-- `languageToolCheck` from src/unnamed/part_000: blank text
short-circuits (`if (!text || !text.trim()) return { matches: [] }`);
otherwise the WHOLE text is posted as a single request, with no chunking. -/
def languageToolCheck (net : Str → Except Unit (List LTMatch)) (text : Str) :
    Except Unit (List LTMatch) :=
  if isBlankL text then .ok []
  else net text

/-- The requests `languageToolCheck` issues. -/
def ltcRequests (text : Str) : List Str :=
  if isBlankL text then [] else [text]

theorem ltChunksN_nil (fuel : Nat) : ltChunksN fuel [] = [] := by
  cases fuel <;> rfl

theorem ltChunksN_cons (fuel : Nat) (c : Char) (cs : Str) :
    ltChunksN (fuel + 1) (c :: cs) =
      (c :: cs).take ltLimit :: ltChunksN fuel ((c :: cs).drop ltLimit) := rfl

theorem ltChunksN_congr : ∀ f1 f2 : Nat, ∀ s : Str,
    s.length ≤ f1 → s.length ≤ f2 → ltChunksN f1 s = ltChunksN f2 s := by
  intro f1
  induction f1 with
  | zero =>
    intro f2 s h1 _
    have : s = [] := List.eq_nil_of_length_eq_zero (Nat.le_zero.mp h1)
    subst this
    rw [ltChunksN_nil, ltChunksN_nil]
  | succ g1 ih =>
    intro f2 s h1 h2
    cases s with
    | nil => rw [ltChunksN_nil, ltChunksN_nil]
    | cons c cs =>
      cases f2 with
      | zero => simp at h2
      | succ g2 =>
        rw [ltChunksN_cons, ltChunksN_cons]
        have hd : ((c :: cs).drop ltLimit).length ≤ g1 := by
          simp only [List.length_drop, List.length_cons, ltLimit] at h1 ⊢
          omega
        have hd2 : ((c :: cs).drop ltLimit).length ≤ g2 := by
          simp only [List.length_drop, List.length_cons, ltLimit] at h2 ⊢
          omega
        rw [ih _ _ hd hd2]

/-- The defining equation of the slicing loop. -/
theorem ltChunks_eq (s : Str) :
    ltChunks s = if s = [] then [] else s.take ltLimit :: ltChunks (s.drop ltLimit) := by
  cases s with
  | nil => rfl
  | cons c cs =>
    rw [if_neg (by simp)]
    unfold ltChunks
    rw [List.length_cons, ltChunksN_cons]
    have hd : ((c :: cs).drop ltLimit).length ≤ cs.length := by
      simp only [List.length_drop, List.length_cons, ltLimit]
      omega
    rw [ltChunksN_congr cs.length ((c :: cs).drop ltLimit).length _ hd le_rfl]

theorem ltChunksN_join : ∀ fuel : Nat, ∀ s : Str, s.length ≤ fuel →
    (ltChunksN fuel s).foldr (fun a b => a ++ b) [] = s := by
  intro fuel
  induction fuel with
  | zero =>
    intro s h
    have : s = [] := List.eq_nil_of_length_eq_zero (Nat.le_zero.mp h)
    subst this
    rfl
  | succ g ih =>
    intro s h
    cases s with
    | nil => rfl
    | cons c cs =>
      rw [ltChunksN_cons, List.foldr_cons]
      have hd : ((c :: cs).drop ltLimit).length ≤ g := by
        simp only [List.length_drop, List.length_cons, ltLimit] at h ⊢
        omega
      rw [ih _ hd, List.take_append_drop]

/-- The chunks concatenate back to the input: the slicing partitions the
text in order. -/
theorem ltChunks_join (s : Str) :
    (ltChunks s).foldr (fun a b => a ++ b) [] = s :=
  ltChunksN_join s.length s le_rfl

theorem ltChunksN_subset : ∀ fuel : Nat, ∀ s : Str,
    ∀ c ∈ ltChunksN fuel s, ∀ x ∈ c, x ∈ s := by
  intro fuel
  induction fuel with
  | zero =>
    intro s c hc
    cases s with
    | nil => simp [ltChunksN_nil] at hc
    | cons a as => simp [ltChunksN] at hc
  | succ g ih =>
    intro s c hc x hx
    cases s with
    | nil => simp [ltChunksN_nil] at hc
    | cons a as =>
      rw [ltChunksN_cons] at hc
      rcases List.mem_cons.mp hc with rfl | hc
      · exact (List.take_sublist _ _).subset hx
      · exact (List.drop_sublist _ _).subset (ih _ c hc x hx)

theorem ltChunksN_chunk_le : ∀ fuel : Nat, ∀ s : Str,
    ∀ c ∈ ltChunksN fuel s, c.length ≤ ltLimit := by
  intro fuel
  induction fuel with
  | zero =>
    intro s c hc
    cases s with
    | nil => simp [ltChunksN_nil] at hc
    | cons a as => simp [ltChunksN] at hc
  | succ g ih =>
    intro s c hc
    cases s with
    | nil => simp [ltChunksN_nil] at hc
    | cons a as =>
      rw [ltChunksN_cons] at hc
      rcases List.mem_cons.mp hc with rfl | hc
      · rw [List.length_take]
        exact Nat.min_le_left _ _
      · exact ih _ c hc

/-- A short text is one single chunk. -/
theorem ltChunks_short {s : Str} (h1 : s ≠ []) (h2 : s.length ≤ ltLimit) :
    ltChunks s = [s] := by
  rw [ltChunks_eq, if_neg h1, List.take_of_length_le h2,
    List.drop_eq_nil_of_le h2, ltChunks_eq, if_pos rfl]

theorem ltChunks_exact : ∀ k : Nat, ∀ s : Str, s.length = k * ltLimit →
    (ltChunks s).length = k ∧ ∀ c ∈ ltChunks s, c.length = ltLimit := by
  intro k
  induction k with
  | zero =>
    intro s h
    have : s = [] := List.eq_nil_of_length_eq_zero (by simpa using h)
    subst this
    exact ⟨rfl, by intro c hc; simp [ltChunks, ltChunksN_nil] at hc⟩
  | succ j ih =>
    intro s h
    rw [Nat.succ_mul] at h
    have hne : s ≠ [] := by
      intro e
      subst e
      simp only [List.length_nil, ltLimit] at h
      omega
    have hlim : ltLimit ≤ s.length := by
      rw [h]
      exact Nat.le_add_left _ _
    have hdrop : (s.drop ltLimit).length = j * ltLimit := by
      rw [List.length_drop, h]
      omega
    obtain ⟨ihl, ihc⟩ := ih _ hdrop
    rw [ltChunks_eq, if_neg hne]
    constructor
    · rw [List.length_cons, ihl]
    · intro c hc
      rcases List.mem_cons.mp hc with rfl | hc
      · rw [List.length_take]
        exact Nat.min_eq_left hlim
      · exact ihc c hc

/-- `!s.trim()` holds exactly when every character of `s` is JavaScript
whitespace. -/
theorem isBlank_iff_all {s : Str} :
    isBlankL s = true ↔ ∀ c ∈ s, isJsWs c = true := by
  unfold isBlankL jsTrim
  rw [List.isEmpty_iff, List.reverse_eq_nil_iff, List.dropWhile_eq_nil_iff]
  constructor
  · intro h c hc
    have hsplit : s.takeWhile isJsWs ++ s.dropWhile isJsWs = s :=
      List.takeWhile_append_dropWhile isJsWs s
    rw [← hsplit] at hc
    rcases List.mem_append.mp hc with h1 | h2
    · exact List.mem_takeWhile_imp h1
    · exact h c (List.mem_reverse.mpr h2)
  · intro h c hc
    exact h c ((List.dropWhile_sublist _).subset (List.mem_reverse.mp hc))

/-- Every chunk of a blank text is blank. -/
theorem ltChunks_blank {s : Str} (h : isBlankL s = true) :
    ∀ c ∈ ltChunks s, isBlankL c = true := by
  rw [isBlank_iff_all] at h
  intro c hc
  rw [isBlank_iff_all]
  intro x hx
  exact h x (ltChunksN_subset s.length s c hc x hx)

/-- The chunk loop posts nothing when every chunk is blank: the result is
an empty match list whatever the network does. -/
theorem runChunks_all_blank {net : Str → Except Unit (List LTMatch)}
    {l : List Str} (h : ∀ c ∈ l, isBlankL c = true) :
    runChunks net l = Except.ok [] := by
  induction l with
  | nil => rfl
  | cons c cs ih =>
    have hc := h c (List.mem_cons_self c cs)
    simp only [runChunks]
    rw [if_pos hc]
    exact ih (fun d hd => h d (List.mem_cons_of_mem c hd))

/-- If the network fails on some non-blank chunk of the list, the chunk
loop fails: no partial aggregation is returned. -/
theorem runChunks_fail {net : Str → Except Unit (List LTMatch)}
    {l : List Str}
    (h : ∃ c ∈ l, isBlankL c = false ∧ net c = Except.error ()) :
    runChunks net l = Except.error () := by
  induction l with
  | nil => simp at h
  | cons c cs ih =>
    obtain ⟨d, hd, hbl, he⟩ := h
    simp only [runChunks]
    rcases List.mem_cons.mp hd with rfl | hd
    · rw [if_neg (by simp [hbl]), he]
    · by_cases hc : isBlankL c = true
      · rw [if_pos hc]
        exact ih ⟨d, hd, hbl, he⟩
      · rw [if_neg hc]
        cases hnet : net c with
        | error e => cases e; rfl
        | ok ms =>
          rw [ih ⟨d, hd, hbl, he⟩]

/-! ### JSON report builder (C6) -/

/-- `m.rule?.id || "GENERIC"`: the rule key of a match; a missing id and
the empty-string id (both falsy in JS) fall back to the generic key. -/
def ruleKey (m : LTMatch) : Str :=
  match m.ruleId with
  | none => "GENERIC".toList
  | some r => if r = [] then "GENERIC".toList else r

/-- `summary.byRule[key] = (summary.byRule[key] || 0) + 1` on an
association list keyed in first-insertion order. -/
def bumpRule (k : Str) : List (Str × Nat) → List (Str × Nat)
  | [] => [(k, 1)]
  | (k2, n) :: rest =>
    if k2 = k then (k2, n + 1) :: rest else (k2, n) :: bumpRule k rest

/-- The `byRule` accumulation loop of `buildReportJSON`. -/
def byRuleOf (ms : List LTMatch) : List (Str × Nat) :=
  ms.foldl (fun acc m => bumpRule (ruleKey m) acc) []

/-- Lookup in the `byRule` object; an absent key reads as 0
(`summary.byRule[key] || 0`). -/
def lookupRule (k : Str) : List (Str × Nat) → Nat
  | [] => 0
  | (k2, n) :: rest => if k2 = k then n else lookupRule k rest

/-- The `summary` object of `buildReportJSON`. -/
structure ReportSummary where
  fileName : Str
  language : Str
  textLength : Nat
  totalIssues : Nat
  byRule : List (Str × Nat)
deriving DecidableEq

/-- The value returned by `buildReportJSON`; `matchesL` is the `matches`
field of the JS object (`matches` is a reserved word in Lean). -/
structure Report where
  summary : ReportSummary
  matchesL : List LTMatch
deriving DecidableEq

/-- `buildReportJSON` from src/server.js; the `ms` parameter is the JS
`matches` argument. -/
def buildReportJSON (fileName language : Str) (ms : List LTMatch)
    (textLength : Nat) : Report :=
  { summary := { fileName := fileName, language := language,
                 textLength := textLength,
                 totalIssues := ms.length,
                 byRule := byRuleOf ms },
    matchesL := ms }

theorem lookupRule_bump (k k2 : Str) (acc : List (Str × Nat)) :
    lookupRule k (bumpRule k2 acc) =
      lookupRule k acc + (if k2 = k then 1 else 0) := by
  induction acc with
  | nil =>
    simp only [bumpRule, lookupRule]
    by_cases h : k2 = k <;> simp [h]
  | cons p rest ih =>
    obtain ⟨k3, n⟩ := p
    simp only [bumpRule]
    by_cases h : k3 = k2
    · subst h
      rw [if_pos rfl]
      simp only [lookupRule]
      by_cases h2 : k3 = k
      · subst h2
        rw [if_pos rfl, if_pos rfl, if_pos rfl]
      · rw [if_neg h2, if_neg h2, if_neg h2]
        simp
    · rw [if_neg h]
      simp only [lookupRule]
      by_cases h2 : k3 = k
      · subst h2
        rw [if_pos rfl, if_pos rfl, if_neg (fun hk => h hk.symm)]
        simp
      · rw [if_neg h2, if_neg h2, ih]

theorem lookupRule_foldl (k : Str) (ms : List LTMatch) :
    ∀ acc : List (Str × Nat),
    lookupRule k (ms.foldl (fun a m => bumpRule (ruleKey m) a) acc) =
      lookupRule k acc + ms.countP (fun m => decide (ruleKey m = k)) := by
  induction ms with
  | nil => intro acc; simp [List.countP_nil]
  | cons m rest ih =>
    intro acc
    rw [List.foldl_cons, ih, lookupRule_bump, List.countP_cons]
    by_cases hk : ruleKey m = k
    · rw [if_pos hk, if_pos (by simp [hk])]
      omega
    · rw [if_neg hk, if_neg (by simp [hk])]
      omega

/-- Claim C6: for every match sequence, `summary.totalIssues` is the number
of matches, the report carries the matches unchanged, `summary.byRule`
counts, for every key, the matches whose rule key is that key, and a match
lacking a rule id (or with an empty one) is counted under the generic
placeholder key. -/
theorem claim_C6_report_counts (fn lg : Str) (tl : Nat) (ms : List LTMatch) :
    (buildReportJSON fn lg ms tl).summary.totalIssues = ms.length ∧
    (buildReportJSON fn lg ms tl).matchesL = ms ∧
    (∀ k : Str, lookupRule k (buildReportJSON fn lg ms tl).summary.byRule =
      ms.countP (fun m => decide (ruleKey m = k))) ∧
    (∀ m : LTMatch, m.ruleId = none ∨ m.ruleId = some [] →
      ruleKey m = "GENERIC".toList) := by
  refine ⟨rfl, rfl, ?_, ?_⟩
  · intro k
    have h := lookupRule_foldl k ms []
    simpa [buildReportJSON, byRuleOf, lookupRule] using h
  · intro m hm
    rcases hm with h | h <;> simp [ruleKey, h]

/-! ### HTML report builder (C7)

`buildReportHTML` in src/server.js renders one table row per match and
interpolates the summary fields into a fixed template. The message, the
joined replacements and the context are escaped with
`.replace(/</g,"&lt;")`, but `${m.rule?.id || ""}` and
`${summary.fileName}` are interpolated raw. Literal braces of the CSS are
written with escape codes below. -/

/-- `.replace(/</g, "&lt;")`: escape every `<`. -/
def escLt : Str → Str
  | [] => []
  | c :: cs => if c = '<' then "&lt;".toList ++ escLt cs else c :: escLt cs

/-- Decimal rendering of a number interpolated into the template. -/
def natStr (n : Nat) : Str := (Nat.repr n).toList

/-- `Array.prototype.join(", ")`. -/
def joinComma : List Str → Str
  | [] => []
  | [a] => a
  | a :: b :: rest => a ++ ", ".toList ++ joinComma (b :: rest)

/-- `${m.rule?.id || ""}`: the raw rule id, empty when absent. -/
def ruleIdOr (m : LTMatch) : Str := m.ruleId.getD []

/-- `(m.replacements || []).slice(0, 3).map(r => r.value).join(", ")`. -/
def replStr (m : LTMatch) : Str := joinComma (m.replacements.take 3)

/-- `(repl || "-")`. -/
def replOr (m : LTMatch) : Str :=
  if replStr m = [] then "-".toList else replStr m

/-- `m.context?.text || ""`. -/
def ctxOr (m : LTMatch) : Str := m.contextText.getD []

/-- The shared cell opener of the row template. -/
def tdOpen : Str :=
  "\n        <td style=\"padding:8px;border-bottom:1px solid #e5e7eb;\">".toList

/-- One `<tr>` of the report table, exactly as the code builds it: index,
raw rule id, escaped message, escaped replacements, escaped context. -/
def rowHTML (idx : Nat) (m : LTMatch) : Str :=
  "<tr>".toList ++
  tdOpen ++ natStr (idx + 1) ++ "</td>".toList ++
  tdOpen ++ ruleIdOr m ++ "</td>".toList ++
  tdOpen ++ escLt m.message ++ "</td>".toList ++
  tdOpen ++ escLt (replOr m) ++ "</td>".toList ++
  tdOpen ++ escLt (ctxOr m) ++ "</td>".toList ++
  "\n      </tr>".toList

/-- `matches.map((m, idx) => ...).join("")`. -/
def rowsFrom (i : Nat) : List LTMatch → Str
  | [] => []
  | m :: rest => rowHTML i m ++ rowsFrom (i + 1) rest

def rowsOf (ms : List LTMatch) : Str := rowsFrom 0 ms

/-- The placeholder row rendered when `rows` is empty. -/
def aucuneRow : Str :=
  "<tr><td colspan=\"5\" style=\"padding:10px;\">Aucune suggestion.</td></tr>".toList

/-- The template up to the interpolated file name. -/
def htmlHead : Str :=
  ("<!doctype html>\n<html lang=\"fr\">\n<head>\n<meta charset=\"utf-8\"/>\n<title>DocSafe — Rapport LanguageTool</title>\n<meta name=\"viewport\" content=\"width=device-width, initial-scale=1\"/>\n<style>\nbody\x7bfont-family:ui-sans-serif,system-ui,-apple-system,Segoe UI,Roboto,Ubuntu,Cantarell,Noto Sans,sans-serif;background:#0f172a;color:#e5e7eb;margin:0;padding:24px;\x7d\n.card\x7bbackground:#0b1220;border:1px solid #1f2937;border-radius:16px;max-width:1000px;margin:0 auto;box-shadow:0 10px 25px rgba(0,0,0,.35);\x7d\n.card h1\x7bfont-size:22px;margin:0;padding:16px 20px;border-bottom:1px solid #1f2937;\x7d\n.section\x7bpadding:16px 20px;\x7d\n.kv\x7bdisplay:flex;flex-wrap:wrap;gap:12px;font-size:14px;\x7d\n.kv div\x7bbackground:#111827;border:1px solid #1f2937;padding:10px 12px;border-radius:10px;\x7d\n.table\x7bwidth:100%;border-collapse:collapse;margin-top:16px;font-size:14px;background:#0b1220;\x7d\nth\x7bbackground:#111827;text-align:left;padding:10px;border-bottom:1px solid #1f2937;\x7d\ntd\x7bvertical-align:top;\x7d\n</style>\n</head>\n<body>\n  <div class=\"card\">\n    <h1>Rapport LanguageTool</h1>\n    <div class=\"section\">\n      <div class=\"kv\">\n        <div><b>Fichier:</b> ").toList

def htmlMid1 : Str := "</div>\n        <div><b>Langue:</b> ".toList

def htmlMid2 : Str := "</div>\n        <div><b>Longueur texte:</b> ".toList

def htmlMid3 : Str := "</div>\n        <div><b>Total issues:</b> ".toList

def htmlMid4 : Str :=
  ("</div>\n      </div>\n      <table class=\"table\">\n        <thead>\n          <tr>\n            <th>#</th><th>Règle</th><th>Message</th><th>Suggestions</th><th>Contexte</th>\n          </tr>\n        </thead>\n        <tbody>\n          ").toList

def htmlTail : Str :=
  "\n        </tbody>\n      </table>\n    </div>\n  </div>\n</body>\n</html>".toList

/-- `buildReportHTML` from src/server.js; `${rows || placeholder}` renders
the placeholder row exactly when the joined rows are the empty string. -/
def buildReportHTML (r : Report) : Str :=
  htmlHead ++ r.summary.fileName ++ htmlMid1 ++ r.summary.language ++
  htmlMid2 ++ natStr r.summary.textLength ++ htmlMid3 ++
  natStr r.summary.totalIssues ++ htmlMid4 ++
  (if rowsOf r.matchesL = [] then aucuneRow else rowsOf r.matchesL) ++ htmlTail

/-- The row the SPEC describes: identical to `rowHTML` except that the rule
id is also escaped. -/
def rowHTMLSpec (idx : Nat) (m : LTMatch) : Str :=
  "<tr>".toList ++
  tdOpen ++ natStr (idx + 1) ++ "</td>".toList ++
  tdOpen ++ escLt (ruleIdOr m) ++ "</td>".toList ++
  tdOpen ++ escLt m.message ++ "</td>".toList ++
  tdOpen ++ escLt (replOr m) ++ "</td>".toList ++
  tdOpen ++ escLt (ctxOr m) ++ "</td>".toList ++
  "\n      </tr>".toList

def rowsFromSpec (i : Nat) : List LTMatch → Str
  | [] => []
  | m :: rest => rowHTMLSpec i m ++ rowsFromSpec (i + 1) rest

/-- The rendering the SPEC describes ("all user-controlled text
HTML-escaped"): identical template, but the file name, the language (which
comes straight from the request body's `lt_language`) and each rule id are
escaped too. -/
def buildReportHTMLSpec (r : Report) : Str :=
  htmlHead ++ escLt r.summary.fileName ++ htmlMid1 ++
  escLt r.summary.language ++
  htmlMid2 ++ natStr r.summary.textLength ++ htmlMid3 ++
  natStr r.summary.totalIssues ++ htmlMid4 ++
  (if rowsFromSpec 0 r.matchesL = [] then aucuneRow
   else rowsFromSpec 0 r.matchesL) ++ htmlTail

/-- The `/clean-v2` report rendering of src/unnamed/part_000:
`<html><body><h2>Rapport LanguageTool</h2><pre>...body...</pre></body></html>`
where `body` stands for `JSON.stringify(ltResult, null, 2)`, interpolated
with no escaping of any kind. -/
def preReportHTML (body : Str) : Str :=
  "<html><body><h2>Rapport LanguageTool</h2><pre>".toList ++ body ++
  "</pre></body></html>".toList

/-- `JSON.stringify({ matches: [] }, null, 2)`: the body part_000 renders
for an empty checker result. -/
def ltEmptyJson : Str := "\x7b\n  \"matches\": []\n\x7d".toList

theorem escLt_no_lt (s : Str) : '<' ∉ escLt s := by
  induction s with
  | nil => simp [escLt]
  | cons c cs ih =>
    simp only [escLt]
    by_cases h : c = '<'
    · rw [if_pos h]
      intro hmem
      rcases List.mem_append.mp hmem with h1 | h2
      · have hn : ('<' : Char) ∉ "&lt;".toList := by decide
        exact hn h1
      · exact ih h2
    · rw [if_neg h]
      intro hmem
      rcases List.mem_cons.mp hmem with h1 | h2
      · exact h h1.symm
      · exact ih h2

theorem escLt_id {s : Str} (h : '<' ∉ s) : escLt s = s := by
  induction s with
  | nil => rfl
  | cons c cs ih =>
    simp only [escLt]
    have hc : ¬ c = '<' := fun e => h (e ▸ List.mem_cons_self c cs)
    rw [if_neg hc, ih (fun hm => h (List.mem_cons_of_mem c hm))]

theorem rowHTML_spec_eq (i : Nat) (m : LTMatch) (h : '<' ∉ ruleIdOr m) :
    rowHTMLSpec i m = rowHTML i m := by
  unfold rowHTML rowHTMLSpec
  rw [escLt_id h]

theorem rowsFrom_spec_eq (ms : List LTMatch)
    (h : ∀ m ∈ ms, '<' ∉ ruleIdOr m) :
    ∀ i : Nat, rowsFromSpec i ms = rowsFrom i ms := by
  induction ms with
  | nil => intro i; rfl
  | cons m rest ih =>
    intro i
    simp only [rowsFrom, rowsFromSpec]
    rw [rowHTML_spec_eq i m (h m (List.mem_cons_self m rest)),
      ih (fun d hd => h d (List.mem_cons_of_mem m hd)) (i + 1)]

/-- A report whose file name and rule id carry markup. -/
def evilReport : Report :=
  { summary := { fileName := "<img src=x onerror=alert(1)>.docx".toList,
                 language := "auto".toList, textLength := 5,
                 totalIssues := 1,
                 byRule := [("<script>x</script>".toList, 1)] },
    matchesL := [{ ruleId := some ("<script>x</script>".toList),
                   message := "msg".toList, replacements := [],
                   contextText := none }] }

/-- Claim C7 counterexample: the rendering does NOT escape every piece of
user-controlled text — the rule id and the file name are interpolated raw,
so the code's output differs from the fully-escaped rendering the spec
describes: right after the shared template head, the code's output carries
the raw `<` of the file name where the escaped rendering has `&`. The
part_000 rendering cited by the claim is worse: it interpolates the
stringified checker result with NO escaping at all (a `<script>` in it
reaches the HTML verbatim) and renders no "Aucune suggestion." placeholder
row for an empty result. -/
theorem claim_C7_counterexample :
    buildReportHTML evilReport ≠ buildReportHTMLSpec evilReport ∧
    preReportHTML ("<script>alert(1)</script>".toList) =
      ("<html><body><h2>Rapport LanguageTool</h2><pre><script>alert(1)</script></pre></body></html>").toList ∧
    occursB ("Aucune suggestion.".toList) (preReportHTML ltEmptyJson) = false ∧
    occursB ("<tr".toList) (preReportHTML ltEmptyJson) = false := by
  refine ⟨?_, by decide, by decide, by decide⟩
  intro h
  unfold buildReportHTML buildReportHTMLSpec at h
  simp only [List.append_assoc] at h
  have h2 := List.append_cancel_left h
  have hfn : evilReport.summary.fileName =
      '<' :: "img src=x onerror=alert(1)>.docx".toList := rfl
  rw [hfn] at h2
  have hesc : escLt ('<' :: "img src=x onerror=alert(1)>.docx".toList) =
      "&lt;".toList ++ escLt ("img src=x onerror=alert(1)>.docx".toList) := by
    simp [escLt]
  rw [hesc, show ("&lt;".toList : Str) = '&' :: ['l', 't', ';'] from rfl] at h2
  simp only [List.cons_append] at h2
  injection h2 with h3 h4
  exact absurd h3 (by decide)

/-- Claim C7 (amended): the message, the joined replacements and the
context of every row are escaped (the escaped text never contains a raw
`<`), and an empty match sequence renders the single "Aucune suggestion."
placeholder row; but the rule id, the file name and the language (all
user-controlled) are interpolated unescaped, so the rendering only
coincides with the fully-escaped one the spec describes when those three
fields contain no `<`. The part_000 rendering
cited by the claim satisfies none of it: the raw stringified result is
always an unescaped infix of its output, and the empty-result output
contains neither the placeholder text nor any table row. -/
theorem claim_C7_html_escaping (r : Report)
    (hfn : '<' ∉ r.summary.fileName)
    (hlang : '<' ∉ r.summary.language)
    (hid : ∀ m ∈ r.matchesL, '<' ∉ ruleIdOr m) :
    buildReportHTML r = buildReportHTMLSpec r ∧
    (∀ s : Str, '<' ∉ escLt s) ∧
    (r.matchesL = [] →
      buildReportHTML r = htmlHead ++ r.summary.fileName ++ htmlMid1 ++
        r.summary.language ++ htmlMid2 ++ natStr r.summary.textLength ++
        htmlMid3 ++ natStr r.summary.totalIssues ++ htmlMid4 ++ aucuneRow ++
        htmlTail) ∧
    (∀ body : Str, body <:+: preReportHTML body) ∧
    occursB ("Aucune suggestion.".toList) (preReportHTML ltEmptyJson) = false ∧
    occursB ("<tr".toList) (preReportHTML ltEmptyJson) = false := by
  refine ⟨?_, fun s => escLt_no_lt s, ?_, ?_, by decide, by decide⟩
  · unfold buildReportHTML buildReportHTMLSpec rowsOf
    rw [escLt_id hfn, escLt_id hlang, rowsFrom_spec_eq r.matchesL hid 0]
  · intro h
    unfold buildReportHTML
    rw [h]
    rfl
  · intro body
    exact ⟨"<html><body><h2>Rapport LanguageTool</h2><pre>".toList,
      "</pre></body></html>".toList, rfl⟩

/-- The empty report of Scenario B. -/
def emptyReport : Report :=
  { summary := { fileName := "doc_cleaned.docx".toList,
                 language := "auto".toList, textLength := 0,
                 totalIssues := 0, byRule := [] },
    matchesL := [] }

theorem claim_C7_html_escaping_witness :
    buildReportHTML emptyReport = buildReportHTMLSpec emptyReport ∧
    buildReportHTML emptyReport = htmlHead ++ emptyReport.summary.fileName ++
      htmlMid1 ++ emptyReport.summary.language ++ htmlMid2 ++
      natStr emptyReport.summary.textLength ++ htmlMid3 ++
      natStr emptyReport.summary.totalIssues ++ htmlMid4 ++ aucuneRow ++
      htmlTail ∧
    ltEmptyJson <:+: preReportHTML ltEmptyJson ∧
    occursB ("Aucune suggestion.".toList) (preReportHTML ltEmptyJson) = false := by
  have h := claim_C7_html_escaping emptyReport (by decide) (by decide) (by decide)
  exact ⟨h.1, h.2.2.1 rfl, h.2.2.2.1 ltEmptyJson, h.2.2.2.2.1⟩

/-- Claim C4 counterexample: a single space is a non-empty text shorter
than the limit, yet it produces ZERO requests, not exactly one — its only
chunk is whitespace-only and the loop skips it. -/
theorem claim_C4_counterexample :
    (" ".toList ≠ ([] : Str)) ∧
    (" ".toList).length < ltLimit ∧
    ltRequests (" ".toList) = [] := by
  refine ⟨by decide, by decide, by decide⟩

/-- Claim C4 (amended): chunking slices the text in order into chunks of at
most 20000 characters that concatenate back to the text; a non-empty,
NON-BLANK text up to the limit is sent as exactly one request, and a text
of exactly k times the limit whose chunks are all non-blank is sent as
exactly k requests of exactly 20000 characters each. (Whitespace-only
chunks are skipped, so the claim's "every non-empty input" is too strong;
and `languageToolCheck` in part_000 never partitions: any non-blank text is
one single request regardless of length.) -/
theorem claim_C4_chunking (s t : Str) (k : Nat)
    (h1 : s ≠ []) (h2 : isBlankL s = false) (h3 : s.length ≤ ltLimit)
    (h4 : t.length = k * ltLimit)
    (h5 : ∀ c ∈ ltChunks t, isBlankL c = false) :
    ltRequests s = [s] ∧
    (ltChunks t).length = k ∧
    (∀ c ∈ ltChunks t, c.length = ltLimit) ∧
    (ltRequests t).length = k ∧
    ((ltChunks s).foldr (fun a b => a ++ b) [] = s) ∧
    (∀ c ∈ ltChunks s, c.length ≤ ltLimit) ∧
    ltcRequests s = [s] := by
  obtain ⟨hkl, hkc⟩ := ltChunks_exact k t h4
  refine ⟨?_, hkl, hkc, ?_, ltChunks_join s,
    fun c hc => ltChunksN_chunk_le s.length s c hc, ?_⟩
  · rw [ltRequests, ltChunks_short h1 h3]
    simp [h2]
  · rw [ltRequests, List.filter_eq_self.mpr (fun c hc => by simp [h5 c hc]), hkl]
  · simp [ltcRequests, h2]

theorem claim_C4_chunking_witness :
    ltRequests ("a".toList) = ["a".toList] ∧
    (ltChunks ([] : Str)).length = 0 ∧
    (ltRequests ([] : Str)).length = 0 ∧
    ((ltChunks ("a".toList)).foldr (fun a b => a ++ b) [] = "a".toList) ∧
    ltcRequests ("a".toList) = ["a".toList] := by
  have h := claim_C4_chunking ("a".toList) [] 0
    (by decide) (by decide) (by decide) (by decide) (by decide)
  exact ⟨h.1, h.2.1, h.2.2.2.1, h.2.2.2.2.1, h.2.2.2.2.2.2⟩

/-- Claim C8: blank (empty or whitespace-only) text yields an empty match
list from both clients while issuing zero network requests — the result
does not depend on the network at all — and the resulting report has
`totalIssues = 0`. -/
theorem claim_C8_blank_no_requests (s : Str) (h : isBlankL s = true) :
    (∀ net, runLanguageTool net s = Except.ok []) ∧
    ltRequests s = [] ∧
    (∀ net, languageToolCheck net s = Except.ok []) ∧
    ltcRequests s = [] ∧
    (∀ fn lg tl, (buildReportJSON fn lg [] tl).summary.totalIssues = 0) := by
  refine ⟨?_, ?_, ?_, ?_, fun fn lg tl => rfl⟩
  · intro net
    exact runChunks_all_blank (ltChunks_blank h)
  · rw [ltRequests]
    refine List.filter_eq_nil_iff.mpr ?_
    intro c hc
    simp [ltChunks_blank h c hc]
  · intro net
    simp [languageToolCheck, h]
  · simp [ltcRequests, h]

theorem claim_C8_blank_no_requests_witness :
    runLanguageTool (fun _ => Except.error ()) (" ".toList) = Except.ok [] ∧
    ltRequests (" ".toList) = [] ∧
    languageToolCheck (fun _ => Except.error ()) (" ".toList) = Except.ok [] ∧
    ltcRequests (" ".toList) = [] ∧
    (buildReportJSON [] [] [] 0).summary.totalIssues = 0 := by
  have h := claim_C8_blank_no_requests (" ".toList) (by decide)
  exact ⟨h.1 _, h.2.1, h.2.2.1 _, h.2.2.2.1, h.2.2.2.2 [] [] 0⟩

/-! ### The /clean-v2 pipeline (C5) -/

/-- The archive the route returns on success: the cleaned document plus the
two report renderings. -/
structure Bundle where
  cleaned : Zip
  reportJSON : Report
  reportHTML : Str

/-- The DOCX branch of the `/clean-v2` route: sanitize, extract the text of
the CLEANED document, run the checker, and build both reports; any
exception — in particular a failed or timed-out checker request — reaches
the catch-all and the request fails with no archive. -/
def cleanV2Docx (net : Str → Except Unit (List LTMatch))
    (fileName lang : Str) (z : Zip) : Except Unit Bundle :=
  let cleaned := processDOCXBasic z
  let text := extractTextFromDOCX cleaned
  match runLanguageTool net text with
  | .error e => .error e
  | .ok ms =>
    let rj := buildReportJSON fileName lang ms text.length
    .ok { cleaned := cleaned, reportJSON := rj,
          reportHTML := buildReportHTML rj }

/-- Claim C5: if the network fails on any chunk the client actually
requests, the whole check operation fails with no partial aggregation of
earlier chunks, and the /clean-v2 request fails entirely: no bundle — no
archive, no cleaned document — is returned. -/
theorem claim_C5_chunk_failure_fails_request
    (net : Str → Except Unit (List LTMatch)) (fileName lang : Str) (z : Zip)
    (h : ∃ c ∈ ltRequests (extractTextFromDOCX (processDOCXBasic z)),
      net c = Except.error ()) :
    runLanguageTool net (extractTextFromDOCX (processDOCXBasic z)) =
      Except.error () ∧
    cleanV2Docx net fileName lang z = Except.error () := by
  obtain ⟨c, hc, he⟩ := h
  rw [ltRequests] at hc
  have hmem := List.mem_filter.mp hc
  have hfail : runLanguageTool net (extractTextFromDOCX (processDOCXBasic z)) =
      Except.error () :=
    runChunks_fail ⟨c, hmem.1, by simpa using hmem.2, he⟩
  refine ⟨hfail, ?_⟩
  simp only [cleanV2Docx]
  rw [hfail]

/-- Evaluation helper: `replaceWT` on the empty entry. -/
theorem replaceWT_nil : replaceWT [] = [] := by
  simp [replaceWT]

theorem replaceWT_cons_some (c : Char) (cs m inner rest : Str)
    (h : tryWT (c :: cs) = some (m, inner, rest)) :
    replaceWT (c :: cs) =
      replaceFirstSub inner (cleanTextBasic inner) m ++ replaceWT rest := by
  simp only [replaceWT]
  split
  · rename_i m2 inner2 rest2 h2
    rw [h] at h2
    injection h2 with h3
    injection h3 with hm h4
    injection h4 with hi hr
    rw [hm, hi, hr]
  · rename_i h2
    rw [h2] at h
    exact absurd h (by simp)

theorem collectWT_nil : collectWT [] = [] := by
  simp [collectWT]

theorem collectWT_cons_some (c : Char) (cs m inner rest : Str)
    (h : tryWT (c :: cs) = some (m, inner, rest)) :
    collectWT (c :: cs) = inner ++ ' ' :: collectWT rest := by
  simp only [collectWT]
  split
  · rename_i m2 inner2 rest2 h2
    rw [h] at h2
    injection h2 with h3
    injection h3 with hm h4
    injection h4 with hi hr
    rw [hi, hr]
  · rename_i h2
    rw [h2] at h
    exact absurd h (by simp)

/-- A concrete document entry with a single text run. -/
def xmlC5 : Str := "<w:t>Hi</w:t>".toList

/-- A concrete archive whose document has the text "Hi". -/
def zC5 : Zip := fun n => if n = docPath then some xmlC5 else none

theorem tryWT_c5 :
    tryWT xmlC5 = some ("<w:t>Hi</w:t>".toList, "Hi".toList, []) := by decide

instance (s : Str) : Decidable (Norm s) := by
  unfold Norm
  infer_instance

theorem replaceWT_c5 : replaceWT xmlC5 = xmlC5 := by
  rw [show xmlC5 = '<' :: "w:t>Hi</w:t>".toList from rfl,
    replaceWT_cons_some '<' ("w:t>Hi</w:t>".toList)
      ("<w:t>Hi</w:t>".toList) ("Hi".toList) [] tryWT_c5]
  rw [show cleanTextBasic ("Hi".toList) = "Hi".toList from
    cleanTextBasic_fix (by decide)]
  rw [replaceWT_nil]
  decide

theorem collectWT_c5 : collectWT xmlC5 = "Hi ".toList := by
  rw [show xmlC5 = '<' :: "w:t>Hi</w:t>".toList from rfl,
    collectWT_cons_some '<' ("w:t>Hi</w:t>".toList)
      ("<w:t>Hi</w:t>".toList) ("Hi".toList) [] tryWT_c5]
  rw [collectWT_nil]
  decide

theorem extract_c5 :
    extractTextFromDOCX (processDOCXBasic zC5) = "Hi".toList := by
  have hdoc : processDOCXBasic zC5 docPath = some xmlC5 := by
    rw [processDOCXBasic_doc]
    rw [show zC5 docPath = some xmlC5 from rfl]
    rw [Option.map_some', replaceWT_c5]
  unfold extractTextFromDOCX
  rw [hdoc]
  dsimp only
  rw [collectWT_c5]
  rw [show cleanTextBasic ("Hi ".toList) = "Hi".toList from by
    simp [cleanTextBasic, jsTrim, pass6, pass5, pass4, pass3, collapseST,
      stripZW, dropSp, takeSp, dropOneSp, zwsp, isSpaceTab, isPunc, isJsWs]]

theorem claim_C5_chunk_failure_fails_request_witness :
    runLanguageTool (fun _ => Except.error ())
      (extractTextFromDOCX (processDOCXBasic zC5)) = Except.error () ∧
    cleanV2Docx (fun _ => Except.error ()) ("f_cleaned.docx".toList)
      ("auto".toList) zC5 = Except.error () :=
  claim_C5_chunk_failure_fails_request (fun _ => Except.error ())
    ("f_cleaned.docx".toList) ("auto".toList) zC5
    ⟨"Hi".toList, by rw [extract_c5]; decide, rfl⟩

end DocSafe
